import Mathlib

/-!
Verification development for the Vendyz backend wallet-funding service.

Embedded source files:
* `src/priceOracle.js` (price cache, CoinGecko/Moralis failover, wallet
  valuation): `getCachedPrice`, `setCachePrice`, `getTokenPrice`,
  `getTokenPrices`, `calculateWalletValue`.
* `src/index.js`: `getAvailableTokensInTreasury`, `selectTokensForTier`.

Modelling conventions:
* JS `Number` values (IEEE-754 binary64) are modelled by `Frac`, an
  unreduced dyadic-friendly fraction, with every arithmetic operation
  rounded by `dRound` to a 53-bit significand, round-to-nearest
  ties-to-even, with unbounded exponent.  This is exactly binary64
  arithmetic away from overflow and subnormal range; all inputs
  considered here stay far inside that range.  `Math.floor` followed by
  `BigInt(...)` on an integer-valued double is the exact integer
  `floorF`.
* JS `BigInt` values (treasury balances, on-chain amounts) are `ℕ`/`ℤ`.
* Token addresses are abstract atoms (`ℕ`); the code lowercases hex
  addresses before using them as keys, so all keys here are already the
  normalized form (USDC = 0, DEGEN = 1, WETH = 2, DAI = 3, cbETH = 4,
  USDbC = 5, AERO = 6, in the watch-list order of `index.js`).
* The network is an explicit environment `FetchEnv`: `cg addrs` is the
  outcome of `fetchFromCoinGecko` (`none` = thrown/non-OK response,
  `some prices` = the parsed per-address price map after `usd || 0`),
  `moralis a` likewise for `fetchFromMoralis`.  Every fetch attempt is
  recorded in a `Fetch` log so "no network call" is a provable
  statement.  Rate-limit sleeping does not change any returned value
  and is not modelled.
* `Date.now()` is a single injected instant `now : ℤ` per call.
* JS exceptions are `Except`; the only reachable `throw` in
  `selectTokensForTier` is the empty-treasury one (all other callees
  catch internally), mirrored by `selectBody`.
-/

set_option maxRecDepth 20000

namespace Vendyz

/-- Unreduced fraction with natural denominator; the carrier for binary64
values (every finite double is a dyadic rational). -/
structure Frac where
  num : ℤ
  den : ℕ
deriving DecidableEq

/-- The double 0. -/
def fzero : Frac := ⟨0, 1⟩

/-- The double literal `0.5` (exactly representable). -/
def half : Frac := ⟨1, 2⟩

/-- Fuel-based floor of log2 (kernel-reducible, unlike `Nat.log2`). -/
def nlog2 : ℕ → ℕ → ℕ
  | 0, _ => 0
  | fuel+1, n => if n ≤ 1 then 0 else nlog2 fuel (n / 2) + 1

/-- Round N/D to the nearest integer, ties to even. -/
def roundMantissa (N D : ℕ) : ℕ :=
  let q := N / D
  let r := N % D
  if 2 * r < D then q
  else if D < 2 * r then q + 1
  else if q % 2 = 0 then q else q + 1

/-- Decide `n/d ≥ 2^e` without rational arithmetic. -/
def geScaled (n d : ℕ) (e : ℤ) : Bool :=
  if 0 ≤ e then d * 2 ^ e.toNat ≤ n else d ≤ n * 2 ^ (-e).toNat

/-- Round the positive rational `n/d` to the nearest binary64 value:
locate the binary exponent `e` (so `2^e ≤ n/d < 2^(e+1)`), then round the
significand to 53 bits, ties to even. -/
def dRoundPos (n d : ℕ) : Frac :=
  let e0 : ℤ := (nlog2 400 n : ℤ) - (nlog2 400 d : ℤ)
  let e : ℤ := if geScaled n d e0 then e0 else e0 - 1
  if 52 ≤ e then
    let u : ℕ := (e - 52).toNat
    ⟨(roundMantissa n (d * 2 ^ u) * 2 ^ u : ℕ), 1⟩
  else
    let u : ℕ := (52 - e).toNat
    ⟨(roundMantissa (n * 2 ^ u) d : ℕ), 2 ^ u⟩

/-- Round any fraction to the nearest binary64 value. -/
def dRound (f : Frac) : Frac :=
  if f.num = 0 then fzero
  else if 0 < f.num then dRoundPos f.num.toNat f.den
  else ⟨-(dRoundPos f.num.natAbs f.den).num, (dRoundPos f.num.natAbs f.den).den⟩

/-- Binary64 multiplication (correctly rounded, as IEEE requires). -/
def dMul (a b : Frac) : Frac := dRound ⟨a.num * b.num, a.den * b.den⟩

/-- Binary64 division (correctly rounded).  Division by zero is
unreachable in the embedded paths (zero prices are filtered first). -/
def dDiv (a b : Frac) : Frac :=
  if 0 < b.num then dRound ⟨a.num * (b.den : ℤ), a.den * b.num.toNat⟩
  else if b.num < 0 then dRound ⟨-(a.num * (b.den : ℤ)), a.den * b.num.natAbs⟩
  else fzero

/-- Binary64 addition (correctly rounded). -/
def dAdd (a b : Frac) : Frac :=
  dRound ⟨a.num * (b.den : ℤ) + b.num * (a.den : ℤ), a.den * b.den⟩

/-- JS `Number(n)` for a nonnegative integer (BigInt → Number conversion). -/
def dOfNat (n : ℕ) : Frac := dRound ⟨(n : ℤ), 1⟩

/-- JS `10 ** d`: the double nearest `10^d` (exact for `d ≤ 22`). -/
def dPow10 (d : ℕ) : Frac := dRound ⟨((10 ^ d : ℕ) : ℤ), 1⟩

/-- JS `BigInt(Math.floor(x))`: exact, since `Math.floor` of a finite double
is an integer-valued double and `BigInt` of such a value is exact. -/
def floorF (f : Frac) : ℤ :=
  if 0 ≤ f.num then ((f.num.toNat / f.den : ℕ) : ℤ)
  else -(((f.num.natAbs + f.den - 1) / f.den : ℕ) : ℤ)

/-! ## Price oracle (`src/priceOracle.js`) -/

/-- Which upstream answered; `nosrc` is the literal `"none"`. -/
inductive Source where
  | coingecko : Source
  | moralis : Source
  | nosrc : Source
deriving DecidableEq

/-- A price-cache entry `{price, source, timestamp}`. -/
structure CacheEntry where
  price : Frac
  source : Source
  timestamp : ℤ
deriving DecidableEq

/-- The `priceCache` Map, as an insertion-ordered association list. -/
abbrev Cache := List (ℕ × CacheEntry)

/-- Map read `priceCache.get(addr)`. -/
def cacheGet (c : Cache) (a : ℕ) : Option CacheEntry :=
  match c with
  | [] => none
  | (b, e) :: rest => if b = a then some e else cacheGet rest a

/-- Map write `priceCache.set(addr, e)`: replace in place, else append (JS Map). -/
def cacheSet (c : Cache) (a : ℕ) (e : CacheEntry) : Cache :=
  match c with
  | [] => [(a, e)]
  | (b, e0) :: rest => if b = a then (a, e) :: rest else (b, e0) :: cacheSet rest a e

/-- Constant `CACHE_TTL = 5 * 60 * 1000` milliseconds. -/
def CACHE_TTL : ℤ := 300000

/-- Source `setCachePrice(addr, price, source)` stamped with the current time. -/
def setCachePrice (c : Cache) (now : ℤ) (a : ℕ) (p : Frac) (s : Source) : Cache :=
  cacheSet c a ⟨p, s, now⟩

/-- A `{price, cached, source}` result of a price lookup. -/
structure PriceResult where
  price : Frac
  cached : Bool
  source : Source
deriving DecidableEq

/-- The network: outcomes of `fetchFromCoinGecko` (batch; `none` = thrown
or non-OK) and `fetchFromMoralis` (single). -/
structure FetchEnv where
  cg : List ℕ → Option (List (ℕ × Frac))
  moralis : ℕ → Option Frac

/-- One recorded network attempt against a price source. -/
structure Fetch where
  src : Source
  addrs : List ℕ
deriving DecidableEq

/-- Key lookup in a parsed price-response object. -/
def lookupP (ps : List (ℕ × Frac)) (a : ℕ) : Option Frac :=
  match ps with
  | [] => none
  | (b, p) :: rest => if b = a then some p else lookupP rest a

/-- Source `getCachedPrice`: serve `{price, cached: true, source}` iff the entry
exists and `now - timestamp < CACHE_TTL`. -/
def getCachedPrice (c : Cache) (now : ℤ) (a : ℕ) : Option PriceResult :=
  match cacheGet c a with
  | some e => if now - e.timestamp < CACHE_TTL then some ⟨e.price, true, e.source⟩ else none
  | none => none

/-- The CoinGecko leg of `getTokenPrice`: the price is accepted iff the
call succeeded and the response maps the address to a truthy (nonzero)
price — `cgResult.success && cgResult.prices[addr]`. -/
def cgHitFor (env : FetchEnv) (a : ℕ) : Option Frac :=
  match env.cg [a] with
  | some prices =>
    match lookupP prices a with
    | some p => if p.num = 0 then none else some p
    | none => none
  | none => none

/-- Source `getTokenPrice`: cache, then CoinGecko (accepted iff the response maps
the address to a truthy price), then Moralis, else `{0, "none"}`.  Also
returns the updated cache and the list of fetch attempts made. -/
def getTokenPrice (env : FetchEnv) (now : ℤ) (a : ℕ) (c : Cache) :
    PriceResult × Cache × List Fetch :=
  match getCachedPrice c now a with
  | some r => (r, c, [])
  | none =>
    match cgHitFor env a with
    | some p =>
      (⟨p, false, Source.coingecko⟩, setCachePrice c now a p Source.coingecko,
        [⟨Source.coingecko, [a]⟩])
    | none =>
      match env.moralis a with
      | some p =>
        if p.num = 0 then
          (⟨fzero, false, Source.nosrc⟩, c, [⟨Source.coingecko, [a]⟩, ⟨Source.moralis, [a]⟩])
        else
          (⟨p, false, Source.moralis⟩, setCachePrice c now a p Source.moralis,
            [⟨Source.coingecko, [a]⟩, ⟨Source.moralis, [a]⟩])
      | none =>
        (⟨fzero, false, Source.nosrc⟩, c, [⟨Source.coingecko, [a]⟩, ⟨Source.moralis, [a]⟩])

/-- Key lookup in the `results` object of `getTokenPrices`. -/
def lookupR (rs : List (ℕ × PriceResult)) (a : ℕ) : Option PriceResult :=
  match rs with
  | [] => none
  | (b, r) :: rest => if b = a then some r else lookupR rest a

/-- Property assignment `results[a] = r`. -/
def setR (rs : List (ℕ × PriceResult)) (a : ℕ) (r : PriceResult) :
    List (ℕ × PriceResult) :=
  match rs with
  | [] => [(a, r)]
  | (b, r0) :: rest => if b = a then (a, r) :: rest else (b, r0) :: setR rest a r

/-- First loop of `getTokenPrices`: split the requested addresses into
cached results and the `uncachedAddresses` list (order preserved). -/
def cacheScan (c : Cache) (now : ℤ) : List ℕ → List (ℕ × PriceResult) × List ℕ
  | [] => ([], [])
  | a :: rest =>
    let p := cacheScan c now rest
    match getCachedPrice c now a with
    | some r => ((a, r) :: p.1, p.2)
    | none => (p.1, a :: p.2)

/-- CoinGecko write-back loop of `getTokenPrices`: for each response entry
with price > 0, cache it and record the result. -/
def cgWrite (now : ℤ) : List (ℕ × Frac) → List (ℕ × PriceResult) → Cache →
    List (ℕ × PriceResult) × Cache
  | [], rs, c => (rs, c)
  | (a, p) :: rest, rs, c =>
    if 0 < p.num then
      cgWrite now rest (setR rs a ⟨p, false, Source.coingecko⟩)
        (setCachePrice c now a p Source.coingecko)
    else cgWrite now rest rs c

/-- Per-identifier Moralis fallback loop of `getTokenPrices`. -/
def moralisLoop (env : FetchEnv) (now : ℤ) :
    List ℕ → List (ℕ × PriceResult) → Cache → List Fetch →
      List (ℕ × PriceResult) × Cache × List Fetch
  | [], rs, c, log => (rs, c, log)
  | a :: rest, rs, c, log =>
    let need :=
      match lookupR rs a with
      | none => true
      | some r => r.price.num = 0
    if need then
      match env.moralis a with
      | some p =>
        if p.num = 0 then
          moralisLoop env now rest (setR rs a ⟨fzero, false, Source.nosrc⟩) c
            (log ++ [⟨Source.moralis, [a]⟩])
        else
          moralisLoop env now rest (setR rs a ⟨p, false, Source.moralis⟩)
            (setCachePrice c now a p Source.moralis) (log ++ [⟨Source.moralis, [a]⟩])
      | none =>
        moralisLoop env now rest (setR rs a ⟨fzero, false, Source.nosrc⟩) c
          (log ++ [⟨Source.moralis, [a]⟩])
    else moralisLoop env now rest rs c log

/-- Source `getTokenPrices` (batch): cache scan, one CoinGecko batch call for the
uncached addresses, then a per-identifier Moralis pass. -/
def getTokenPrices (env : FetchEnv) (now : ℤ) (addrs : List ℕ) (c : Cache) :
    List (ℕ × PriceResult) × Cache × List Fetch :=
  let scan := cacheScan c now addrs
  if scan.2.isEmpty then (scan.1, c, [])
  else
    match env.cg scan.2 with
    | some prices =>
      let w := cgWrite now prices scan.1 c
      moralisLoop env now scan.2 w.1 w.2 [⟨Source.coingecko, scan.2⟩]
    | none => moralisLoop env now scan.2 scan.1 c [⟨Source.coingecko, scan.2⟩]

/-! ## Wallet valuation (`calculateWalletValue`) -/

/-- Input token record `{address, amount, decimals}` (amount a decimal
string of the native integer amount). -/
structure WTok where
  addr : ℕ
  amount : ℕ
  decimals : ℕ
deriving DecidableEq

/-- One entry of the returned `tokens` array. -/
structure TokenValue where
  addr : ℕ
  amount : Frac
  price : Frac
  value : Frac
  source : Source
deriving DecidableEq

/-- Valuation loop: `amount = Number(amt) / 10**decimals`,
`value = amount * price`, `totalValue += value`; unpriced tokens get
price 0 / value 0 / source "none". -/
def walletFold (prices : List (ℕ × PriceResult)) :
    List WTok → Frac → Frac × List TokenValue
  | [], tot => (tot, [])
  | t :: rest, tot =>
    let amt := dDiv (dOfNat t.amount) (dPow10 t.decimals)
    match lookupR prices t.addr with
    | some pd =>
      if 0 < pd.price.num then
        let v := dMul amt pd.price
        let r := walletFold prices rest (dAdd tot v)
        (r.1, ⟨t.addr, amt, pd.price, v, pd.source⟩ :: r.2)
      else
        let r := walletFold prices rest tot
        (r.1, ⟨t.addr, amt, fzero, fzero, Source.nosrc⟩ :: r.2)
    | none =>
      let r := walletFold prices rest tot
      (r.1, ⟨t.addr, amt, fzero, fzero, Source.nosrc⟩ :: r.2)

/-- Source `calculateWalletValue`: fetch prices for all addresses via
`getTokenPrices`, then the pure valuation fold. -/
def calculateWalletValue (env : FetchEnv) (now : ℤ) (toks : List WTok) (c : Cache) :
    (Frac × List TokenValue) × Cache × List Fetch :=
  let r := getTokenPrices env now (toks.map WTok.addr) c
  let w := walletFold r.1 toks fzero
  ((w.1, w.2), r.2.1, r.2.2)

/-! ## Token selection (`src/index.js`) -/

/-- A treasury token with positive balance: `{address, balance, decimals}`
(the `symbol` field is only used in log strings and is omitted). -/
structure Tok where
  addr : ℕ
  balance : ℕ
  decimals : ℕ
deriving DecidableEq

def USDC : ℕ := 0

def DEGEN : ℕ := 1

def WETH : ℕ := 2

def DAI : ℕ := 3

def CBETH : ℕ := 4

def USDBC : ℕ := 5

def AERO : ℕ := 6

/-- The fixed `tokensToCheck` watch-list, in source order. -/
def watchlist : List ℕ := [USDC, DEGEN, WETH, DAI, CBETH, USDBC, AERO]

/-- Per-address body of `getAvailableTokensInTreasury`: the treasury
collaborator reports `some (balance, decimals)` or `none` (a read that
threw and was skipped); tokens with balance 0 are dropped. -/
def availF (tre : ℕ → Option (ℕ × ℕ)) (a : ℕ) : Option Tok :=
  match tre a with
  | some bd => if 0 < bd.1 then some ⟨a, bd.1, bd.2⟩ else none
  | none => none

/-- Source `getAvailableTokensInTreasury`: scan the watch-list against the
treasury, keeping tokens with positive balance. -/
def getAvailableTokensInTreasury (tre : ℕ → Option (ℕ × ℕ)) : List Tok :=
  watchlist.filterMap (availF tre)

/-- The treasury balance the collaborator reports for an address (0 when
the token is absent). -/
def treasuryBalance (tre : ℕ → Option (ℕ × ℕ)) (a : ℕ) : ℕ :=
  match tre a with
  | some bd => bd.1
  | none => 0

/-- Source `sponsorTokensInTreasury`: available tokens whose address is in the
active-sponsor list. -/
def sponsoredOf (tre : ℕ → Option (ℕ × ℕ)) (sponsors : List ℕ) : List Tok :=
  (getAvailableTokensInTreasury tre).filter fun t => sponsors.contains t.addr

/-- Source `nonSponsorTokens`: available tokens not in the sponsor list. -/
def nonSponsoredOf (tre : ℕ → Option (ℕ × ℕ)) (sponsors : List ℕ) : List Tok :=
  (getAvailableTokensInTreasury tre).filter fun t => !sponsors.contains t.addr

/-- Per-token body shared by the sponsor and non-sponsor passes: fetch the
price; skip if 0; `amount = Math.floor(per / price * 10 ** decimals)`;
clamp to the treasury balance when it exceeds it. -/
def processToken (env : FetchEnv) (now : ℤ) (per : Frac) (t : Tok) (c : Cache) :
    List (ℕ × ℤ) × Cache × List Fetch :=
  let r := getTokenPrice env now t.addr c
  if r.1.price.num = 0 then ([], r.2.1, r.2.2)
  else if (t.balance : ℤ) < floorF (dMul (dDiv per r.1.price) (dPow10 t.decimals)) then
    ([(t.addr, (t.balance : ℤ))], r.2.1, r.2.2)
  else ([(t.addr, floorF (dMul (dDiv per r.1.price) (dPow10 t.decimals)))], r.2.1, r.2.2)

/-- A selection pass over a token list, threading the price cache. -/
def processTokens (env : FetchEnv) (now : ℤ) (per : Frac) :
    List Tok → Cache → List (ℕ × ℤ) × Cache × List Fetch
  | [], c => ([], c, [])
  | t :: ts, c =>
    let r1 := processToken env now per t c
    let r2 := processTokens env now per ts r1.2.1
    (r1.1 ++ r2.1, r2.2.1, r1.2.2 ++ r2.2.2)

/-- Source `targetValueInUSD = Number(estimatedValue) / 1e6`. -/
def targetValueD (E : ℕ) : Frac := dDiv (dOfNat E) (dOfNat 1000000)

/-- Source `sponsorValue = targetValueInUSD * 0.5`. -/
def sponsorBudgetD (E : ℕ) : Frac := dMul (targetValueD E) half

/-- Source `otherValue = targetValueInUSD * 0.5`. -/
def otherBudgetD (E : ℕ) : Frac := dMul (targetValueD E) half

/-- The `{tokens, amounts}` object returned by `selectTokensForTier`. -/
structure SelResult where
  tokens : List ℕ
  amounts : List ℤ
deriving DecidableEq

/-- Step 5 of `selectTokensForTier` (the sponsor pass): if any sponsored
token is in the treasury, split the sponsor budget by the count of ALL
sponsored-in-treasury records (`valuePerSponsor = sponsorValue /
sponsorTokensInTreasury.length`) and process each. -/
def sponsorPassD (env : FetchEnv) (now : ℤ) (tre : ℕ → Option (ℕ × ℕ))
    (sponsors : List ℕ) (E : ℕ) (c0 : Cache) :
    List (ℕ × ℤ) × Cache × List Fetch :=
  let sponsored := sponsoredOf tre sponsors
  if 0 < sponsored.length then
    processTokens env now (dDiv (sponsorBudgetD E) (dOfNat sponsored.length)) sponsored c0
  else ([], c0, [])

/-- The random other-token draw: shuffle the non-sponsored list and take
`Math.min(3, nonSponsorTokens.length)`. -/
def otherSelectionD (tre : ℕ → Option (ℕ × ℕ)) (sponsors : List ℕ)
    (shuffle : List Tok → List Tok) : List Tok :=
  (shuffle (nonSponsoredOf tre sponsors)).take (min 3 (nonSponsoredOf tre sponsors).length)

/-- Step 6 of `selectTokensForTier` (the non-sponsor pass). -/
def otherPassD (env : FetchEnv) (now : ℤ) (tre : ℕ → Option (ℕ × ℕ))
    (sponsors : List ℕ) (shuffle : List Tok → List Tok) (E : ℕ) (c1 : Cache) :
    List (ℕ × ℤ) × Cache × List Fetch :=
  let numOther := min 3 (nonSponsoredOf tre sponsors).length
  if 0 < numOther ∧ 0 < (otherBudgetD E).num then
    processTokens env now (dDiv (otherBudgetD E) (dOfNat numOther))
      (otherSelectionD tre sponsors shuffle) c1
  else ([], c1, [])

/-- In-function fallback when both passes produced nothing: the first
available token, with `min(estimatedValue, balance)`. -/
def fallbackLines (available : List Tok) (E : ℕ) : List (ℕ × ℤ) :=
  match available with
  | t :: _ => [(t.addr, min (E : ℤ) (t.balance : ℤ))]
  | [] => []

/-- Body of `selectTokensForTier` inside its `try`: the only reachable
`throw` is the empty-treasury one (the sponsor fetch, price lookups and
`calculateWalletValue` all catch internally, and the fallback `throw`
needs an empty treasury, which already threw earlier).  `shuffle` is the
random permutation drawn by `sort(() => Math.random() - 0.5)`.  The
trailing `getTokenPrices` is the price fetch performed by the
`calculateWalletValue` call at the end of the function, whose returned
value is only logged. -/
def selectBody (env : FetchEnv) (now : ℤ) (tre : ℕ → Option (ℕ × ℕ))
    (sponsors : List ℕ) (shuffle : List Tok → List Tok) (E : ℕ) (c0 : Cache) :
    Except String (SelResult × Cache × List Fetch) :=
  let available := getAvailableTokensInTreasury tre
  if available.isEmpty then Except.error "No tokens available in TokenTreasury"
  else
    let r1 := sponsorPassD env now tre sponsors E c0
    let r2 := otherPassD env now tre sponsors shuffle E r1.2.1
    let lines := r1.1 ++ r2.1
    let lines2 := if lines.isEmpty then fallbackLines available E else lines
    let r3 := getTokenPrices env now (lines2.map Prod.fst) r2.2.1
    Except.ok (⟨lines2.map Prod.fst, lines2.map Prod.snd⟩, r3.2.1,
      r1.2.2 ++ r2.2.2 ++ r3.2.2)

/-- Source `selectTokensForTier`, catch included: any error falls back to
`{tokens: [USDC_ADDRESS], amounts: [estimatedValue]}` with no balance
check. -/
def selectTokensForTier (env : FetchEnv) (now : ℤ) (tre : ℕ → Option (ℕ × ℕ))
    (sponsors : List ℕ) (shuffle : List Tok → List Tok) (E : ℕ) (c0 : Cache) :
    SelResult × Cache × List Fetch :=
  match selectBody env now tre sponsors shuffle E c0 with
  | Except.ok r => r
  | Except.error _ => (⟨[USDC], [(E : ℤ)]⟩, c0, [])

/-- The line list (`selectedTokens` zipped with `selectedAmounts`)
produced by a successful `selectTokensForTier` run: the two passes, then
the in-function fallback when both produced nothing. -/
def selLinesD (env : FetchEnv) (now : ℤ) (tre : ℕ → Option (ℕ × ℕ))
    (sponsors : List ℕ) (shuffle : List Tok → List Tok) (E : ℕ) (c0 : Cache) :
    List (ℕ × ℤ) :=
  if ((sponsorPassD env now tre sponsors E c0).1 ++
      (otherPassD env now tre sponsors shuffle E
        (sponsorPassD env now tre sponsors E c0).2.1).1).isEmpty then
    fallbackLines (getAvailableTokensInTreasury tre) E
  else
    (sponsorPassD env now tre sponsors E c0).1 ++
      (otherPassD env now tre sponsors shuffle E
        (sponsorPassD env now tre sponsors E c0).2.1).1

/-! ## Specification-side predicates and pure views -/

/-- Every allocation line stays within the treasury balance reported for
its token at selection time ("never over-allocates"). -/
def overAllocOk (tre : ℕ → Option (ℕ × ℕ)) (r : SelResult) : Bool :=
  (r.tokens.zip r.amounts).all fun p => p.2 ≤ (treasuryBalance tre p.1 : ℤ)

/-- Both upstream sources only ever report nonnegative USD prices (their
API contract; the parsed `usd || 0` / `usdPrice || 0` fields are market
prices). -/
def EnvNonneg (env : FetchEnv) : Prop :=
  (∀ addrs ps, env.cg addrs = some ps → ∀ ap ∈ ps, 0 ≤ (ap.2).num) ∧
  (∀ a p, env.moralis a = some p → 0 ≤ p.num)

/-- Every cache entry holds a nonnegative price. -/
def CacheNonneg (c : Cache) : Prop := ∀ e ∈ c, 0 ≤ (e.2).price.num

/-- The cache invariant of C10: every entry was written by a successful
fetch, so it carries source `coingecko` or `moralis` and a positive
price. -/
def CacheOk (c : Cache) : Prop :=
  ∀ e ∈ c, ((e.2).source = Source.coingecko ∨ (e.2).source = Source.moralis) ∧
    0 < (e.2).price.num

/-- A parsed CoinGecko response object has unique keys (it is a JSON
object keyed by address). -/
def CGKeysUnique (env : FetchEnv) : Prop :=
  ∀ q ps, env.cg q = some ps → (ps.map Prod.fst).Nodup

/-- The identifier is not priced by the primary source's response for
query `q`: the call errored, the response omits it, or its price is
nonpositive. -/
def cgUnpriced (env : FetchEnv) (q : List ℕ) (a : ℕ) : Prop :=
  match env.cg q with
  | none => True
  | some ps =>
    match lookupP ps a with
    | none => True
    | some p => p.num ≤ 0

/-- The fallback source fails for the identifier: errored call or
nonpositive price. -/
def moralisUnpriced (env : FetchEnv) (a : ℕ) : Prop :=
  match env.moralis a with
  | none => True
  | some p => p.num ≤ 0

/-- Clamp rule: if the amount exceeds the balance, use the balance. -/
def clampAmt (t : Tok) (a : ℤ) : ℤ := if (t.balance : ℤ) < a then (t.balance : ℤ) else a

/-- Pure per-token view of `processToken` as a function of the resolved
price: skip when the price is 0, else the floored double amount, clamped
to the balance. -/
def pureLine (ρ : ℕ → PriceResult) (per : Frac) (t : Tok) : Option (ℕ × ℤ) :=
  if (ρ t.addr).price.num = 0 then none
  else some (t.addr, clampAmt t (floorF (dMul (dDiv per (ρ t.addr).price) (dPow10 t.decimals))))

/-- Pure view of a whole pass. -/
def pureLines (ρ : ℕ → PriceResult) (per : Frac) (toks : List Tok) : List (ℕ × ℤ) :=
  toks.filterMap (pureLine ρ per)

/-! ## Concrete configurations used by counterexamples and witnesses -/

/-- Environment in which both price sources fail on every call. -/
def envNone : FetchEnv := ⟨fun _ => none, fun _ => none⟩

/-- Scenario A treasury: only USDC held, balance 10,000 USDC (6
decimals). -/
def treScnA : ℕ → Option (ℕ × ℕ) := fun a => if a = USDC then some (10000000000, 6) else none

/-- Scenario A price cache: USDC freshly priced at $1.00. -/
def cacheScnA : Cache := [(USDC, ⟨⟨1, 1⟩, Source.coingecko, 0⟩)]

/-- Empty-treasury configuration: every watched token reports balance 0,
so `getAvailableTokensInTreasury` is empty. -/
def treZero : ℕ → Option (ℕ × ℕ) := fun _ => some (0, 6)

/-- C4 treasury: DEGEN and AERO held (both sponsored below). -/
def treScnC4 : ℕ → Option (ℕ × ℕ) := fun a =>
  if a = DEGEN then some (10 ^ 13, 6) else if a = AERO then some (10 ^ 13, 6) else none

/-- C4 cache: DEGEN freshly priced at $1.00; AERO unpriced (both sources
fail), so of the two sponsored records exactly one is priced. -/
def cacheScnC4 : Cache := [(DEGEN, ⟨⟨1, 1⟩, Source.coingecko, 0⟩)]

/-- Modelled from the spec's words for C4: `valuePerSponsor =
sponsorBudget / count` where count is the number of sponsored records
with price > 0 (here 1), giving DEGEN
`floor(((sponsorBudget / 1) / 1) * 10^6)` = 50000000. -/
def c4ClaimAmount : ℤ :=
  floorF (dMul (dDiv (dDiv (sponsorBudgetD 100000000) (dOfNat 1)) ⟨1, 1⟩) (dPow10 6))

/-- C5 treasury: only DEGEN held, huge balance, 18 decimals. -/
def treScnC5 : ℕ → Option (ℕ × ℕ) := fun a => if a = DEGEN then some (10 ^ 21, 18) else none

/-- C5 cache: DEGEN freshly priced at the double nearest 0.29 (what a
JSON `0.29` parses to): 5224175567749775 / 2^54. -/
def cacheScnC5 : Cache := [(DEGEN, ⟨⟨5224175567749775, 2 ^ 54⟩, Source.coingecko, 0⟩)]

/-- Modelled from the spec's words for C5: the exact rational
`perTokenValueUSD / price * 10^decimals` for the C5 scenario, computed
with exact arithmetic: `perTokenValueUSD = (580000 / 10^6) * 0.5 = 29/100`
exactly, price = 5224175567749775/2^54, decimals = 18. -/
def c5ExactValue : Frac := ⟨29 * 2 ^ 54 * 10 ^ 18, 100 * 5224175567749775⟩

/-- Environment whose primary source prices every query as USDC at $5. -/
def envCG5 : FetchEnv := ⟨fun _ => some [(USDC, ⟨5, 1⟩)], fun _ => none⟩

/-! ## Theorems -/

theorem cacheGet_mem (c : Cache) (a : ℕ) (e : CacheEntry) (h : cacheGet c a = some e) :
    (a, e) ∈ c := by
  induction c with
  | nil => cases h
  | cons x rest ih =>
    rw [cacheGet] at h
    by_cases hb : x.1 = a
    · rw [if_pos hb] at h
      cases h
      have hx2 : (a, x.2) = x := by rw [← hb]
      rw [hx2]
      exact List.mem_cons_self x rest
    · rw [if_neg hb] at h
      exact List.mem_cons_of_mem x (ih h)

theorem lookupP_mem (ps : List (ℕ × Frac)) (a : ℕ) (p : Frac) (h : lookupP ps a = some p) :
    (a, p) ∈ ps := by
  induction ps with
  | nil => cases h
  | cons x rest ih =>
    rw [lookupP] at h
    by_cases hb : x.1 = a
    · rw [if_pos hb] at h
      cases h
      have hx2 : (a, x.2) = x := by rw [← hb]
      rw [hx2]
      exact List.mem_cons_self x rest
    · rw [if_neg hb] at h
      exact List.mem_cons_of_mem x (ih h)

theorem cacheSet_mem (c : Cache) (a : ℕ) (e : CacheEntry) :
    ∀ x ∈ cacheSet c a e, x = (a, e) ∨ x ∈ c := by
  induction c with
  | nil => intro x hx; simp [cacheSet] at hx; left; exact hx
  | cons y rest ih =>
    intro x hx
    rw [cacheSet] at hx
    by_cases hb : y.1 = a
    · rw [if_pos hb] at hx
      rcases List.mem_cons.mp hx with h | h
      · left; exact h
      · right; exact List.mem_cons_of_mem y h
    · rw [if_neg hb] at hx
      rcases List.mem_cons.mp hx with h | h
      · right; subst h; exact List.mem_cons_self y rest
      · rcases ih x h with h2 | h2
        · left; exact h2
        · right; exact List.mem_cons_of_mem y h2

theorem cacheOk_set (c : Cache) (now : ℤ) (a : ℕ) (p : Frac) (s : Source)
    (hok : CacheOk c) (hs : s = Source.coingecko ∨ s = Source.moralis) (hp : 0 < p.num) :
    CacheOk (setCachePrice c now a p s) := by
  intro x hx
  rcases cacheSet_mem c a ⟨p, s, now⟩ x hx with h | h
  · subst h; exact ⟨hs, hp⟩
  · exact hok x h

theorem getTokenPrice_hit (env : FetchEnv) (now : ℤ) (a : ℕ) (c : Cache) (r : PriceResult)
    (h : getCachedPrice c now a = some r) : getTokenPrice env now a c = (r, c, []) := by
  simp [getTokenPrice, h]

theorem getTokenPrice_cg (env : FetchEnv) (now : ℤ) (a : ℕ) (c : Cache) (p : Frac)
    (hmiss : getCachedPrice c now a = none) (h : cgHitFor env a = some p) :
    getTokenPrice env now a c =
      (⟨p, false, Source.coingecko⟩, setCachePrice c now a p Source.coingecko,
        [⟨Source.coingecko, [a]⟩]) := by
  simp [getTokenPrice, hmiss, h]

theorem getTokenPrice_moralis (env : FetchEnv) (now : ℤ) (a : ℕ) (c : Cache) (p : Frac)
    (hmiss : getCachedPrice c now a = none) (h1 : cgHitFor env a = none)
    (h2 : env.moralis a = some p) (h3 : p.num ≠ 0) :
    getTokenPrice env now a c =
      (⟨p, false, Source.moralis⟩, setCachePrice c now a p Source.moralis,
        [⟨Source.coingecko, [a]⟩, ⟨Source.moralis, [a]⟩]) := by
  simp [getTokenPrice, hmiss, h1, h2, h3]

theorem getTokenPrice_fail (env : FetchEnv) (now : ℤ) (a : ℕ) (c : Cache)
    (hmiss : getCachedPrice c now a = none) (h1 : cgHitFor env a = none)
    (h2 : env.moralis a = none ∨ ∃ p, env.moralis a = some p ∧ p.num = 0) :
    getTokenPrice env now a c =
      (⟨fzero, false, Source.nosrc⟩, c,
        [⟨Source.coingecko, [a]⟩, ⟨Source.moralis, [a]⟩]) := by
  rcases h2 with h2 | ⟨p, h2, h3⟩
  · simp [getTokenPrice, hmiss, h1, h2]
  · simp [getTokenPrice, hmiss, h1, h2, h3]

theorem cgHitFor_inv (env : FetchEnv) (a : ℕ) (p : Frac) (h : cgHitFor env a = some p) :
    ∃ ps, env.cg [a] = some ps ∧ lookupP ps a = some p ∧ p.num ≠ 0 := by
  rcases h1 : env.cg [a] with _ | ps
  · simp [cgHitFor, h1] at h
  · rcases h2 : lookupP ps a with _ | q
    · simp [cgHitFor, h1, h2] at h
    · by_cases h3 : q.num = 0
      · simp [cgHitFor, h1, h2, h3] at h
      · have hq : some q = some p := by simpa [cgHitFor, h1, h2, h3] using h
        cases hq
        exact ⟨ps, rfl, h2, h3⟩

theorem getTokenPrice_miss_shape (env : FetchEnv) (now : ℤ) (a : ℕ) (c : Cache)
    (hmiss : getCachedPrice c now a = none) :
    (getTokenPrice env now a c).1.cached = false ∧
      (getTokenPrice env now a c).2.2 ≠ [] := by
  rcases hc : cgHitFor env a with _ | p
  · rcases hm : env.moralis a with _ | q
    · rw [getTokenPrice_fail env now a c hmiss hc (Or.inl hm)]
      exact ⟨rfl, by simp⟩
    · by_cases h3 : q.num = 0
      · rw [getTokenPrice_fail env now a c hmiss hc (Or.inr ⟨q, hm, h3⟩)]
        exact ⟨rfl, by simp⟩
      · rw [getTokenPrice_moralis env now a c q hmiss hc hm h3]
        exact ⟨rfl, by simp⟩
  · rw [getTokenPrice_cg env now a c p hmiss hc]
    exact ⟨rfl, by simp⟩

/-- Claim C6 (confirmed): a price cached at time T is served verbatim from
the cache, with the cache unchanged and zero network calls, for every
lookup with `now - T < CACHE_TTL`; once `CACHE_TTL <= now - T` the
expired entry is not served (`cached = false`) and a new fetch attempt is
made. -/
theorem c6_cache_ttl (env : FetchEnv) (c : Cache) (now : ℤ) (a : ℕ) (e : CacheEntry)
    (h : cacheGet c a = some e) :
    (now - e.timestamp < CACHE_TTL →
      getTokenPrice env now a c = (⟨e.price, true, e.source⟩, c, [])) ∧
    (CACHE_TTL ≤ now - e.timestamp →
      (getTokenPrice env now a c).1.cached = false ∧
        (getTokenPrice env now a c).2.2 ≠ []) := by
  constructor
  · intro hf
    simp [getTokenPrice, getCachedPrice, h, hf]
  · intro hs
    have hmiss : getCachedPrice c now a = none := by
      simp only [getCachedPrice, h]
      rw [if_neg (by omega)]
    exact getTokenPrice_miss_shape env now a c hmiss

theorem cacheScan_all_cached (c : Cache) (now : ℤ) :
    ∀ addrs : List ℕ, (∀ a ∈ addrs, (getCachedPrice c now a).isSome) →
      (cacheScan c now addrs).2 = [] := by
  intro addrs h
  induction addrs with
  | nil => rfl
  | cons a rest ih =>
    simp only [cacheScan]
    rcases hh : getCachedPrice c now a with _ | r
    · have := h a (List.mem_cons_self a rest)
      rw [hh] at this
      cases this
    · exact ih fun b hb => h b (List.mem_cons_of_mem a hb)

/-- Claim C8, amended (corrected): `calculateWalletValue` never touches
the treasury snapshot, and when every requested price is freshly cached
it leaves the price cache unchanged and makes no network call; the
original claim fails because on a cache miss the inner `getTokenPrices`
writes fetched prices into the shared cache. -/
theorem c8_amended (env : FetchEnv) (now : ℤ) (toks : List WTok) (c : Cache)
    (h : ∀ a ∈ toks.map WTok.addr, (getCachedPrice c now a).isSome) :
    (calculateWalletValue env now toks c).2.1 = c ∧
      (calculateWalletValue env now toks c).2.2 = [] := by
  have h2 : (cacheScan c now (toks.map WTok.addr)).2 = [] :=
    cacheScan_all_cached c now (toks.map WTok.addr) h
  simp [calculateWalletValue, getTokenPrices, h2]

theorem getTokenPrice_cacheOk (env : FetchEnv) (now : ℤ) (a : ℕ) (c : Cache)
    (hnn : EnvNonneg env) (hok : CacheOk c) :
    CacheOk ((getTokenPrice env now a c).2.1) := by
  rcases h0 : getCachedPrice c now a with _ | r
  · rcases hc : cgHitFor env a with _ | p
    · rcases hm : env.moralis a with _ | q
      · rw [getTokenPrice_fail env now a c h0 hc (Or.inl hm)]
        exact hok
      · by_cases h3 : q.num = 0
        · rw [getTokenPrice_fail env now a c h0 hc (Or.inr ⟨q, hm, h3⟩)]
          exact hok
        · rw [getTokenPrice_moralis env now a c q h0 hc hm h3]
          have hq : 0 ≤ q.num := hnn.2 a q hm
          exact cacheOk_set c now a q Source.moralis hok (Or.inr rfl)
            (lt_of_le_of_ne hq (Ne.symm h3))
    · rw [getTokenPrice_cg env now a c p h0 hc]
      rcases cgHitFor_inv env a p hc with ⟨ps, h1, h2, h3⟩
      have hp : 0 ≤ p.num := hnn.1 [a] ps h1 (a, p) (lookupP_mem ps a p h2)
      exact cacheOk_set c now a p Source.coingecko hok (Or.inl rfl)
        (lt_of_le_of_ne hp (Ne.symm h3))
  · rw [getTokenPrice_hit env now a c r h0]
    exact hok

theorem cgWrite_cacheOk (now : ℤ) :
    ∀ (ps : List (ℕ × Frac)) (rs : List (ℕ × PriceResult)) (c : Cache),
      CacheOk c → CacheOk (cgWrite now ps rs c).2 := by
  intro ps
  induction ps with
  | nil => intro rs c hok; exact hok
  | cons x rest ih =>
    intro rs c hok
    rw [cgWrite]
    by_cases hx : 0 < x.2.num
    · rw [if_pos hx]
      exact ih _ _ (cacheOk_set c now x.1 x.2 Source.coingecko hok (Or.inl rfl) hx)
    · rw [if_neg hx]
      exact ih _ _ hok

theorem moralisLoop_cacheOk (env : FetchEnv) (now : ℤ) (hnn : EnvNonneg env) :
    ∀ (rest : List ℕ) (rs : List (ℕ × PriceResult)) (c : Cache) (log : List Fetch),
      CacheOk c → CacheOk (moralisLoop env now rest rs c log).2.1 := by
  intro rest
  induction rest with
  | nil => intro rs c log hok; exact hok
  | cons a rest2 ih =>
    intro rs c log hok
    rw [moralisLoop]
    by_cases hneed : (match lookupR rs a with
      | none => true
      | some r => decide (r.price.num = 0)) = true
    · simp only [hneed, if_pos]
      rcases h2 : env.moralis a with _ | p <;> simp only [h2]
      · exact ih _ _ _ hok
      · by_cases h3 : p.num = 0
        · simp only [h3, if_pos]
          exact ih _ _ _ hok
        · rw [if_neg h3]
          have hp : 0 ≤ p.num := hnn.2 a p h2
          exact ih _ _ _ (cacheOk_set c now a p Source.moralis hok (Or.inr rfl)
            (lt_of_le_of_ne hp (Ne.symm h3)))
    · simp only [hneed]
      exact ih _ _ _ hok

theorem getTokenPrices_cacheOk (env : FetchEnv) (now : ℤ) (addrs : List ℕ) (c : Cache)
    (hnn : EnvNonneg env) (hok : CacheOk c) :
    CacheOk ((getTokenPrices env now addrs c).2.1) := by
  simp only [getTokenPrices]
  by_cases he : (cacheScan c now addrs).2.isEmpty
  · simp only [he, if_pos]
    exact hok
  · simp only [he, Bool.false_eq_true, if_false]
    rcases h1 : env.cg (cacheScan c now addrs).2 with _ | ps <;> simp only [h1]
    · exact moralisLoop_cacheOk env now hnn _ _ _ _ hok
    · exact moralisLoop_cacheOk env now hnn _ _ _ _
        (cgWrite_cacheOk now ps _ c hok)

theorem getCachedPrice_inv (c : Cache) (now : ℤ) (a : ℕ) (r : PriceResult)
    (h : getCachedPrice c now a = some r) :
    ∃ e, cacheGet c a = some e ∧ r = ⟨e.price, true, e.source⟩ := by
  rcases h1 : cacheGet c a with _ | e
  · simp [getCachedPrice, h1] at h
  · by_cases h2 : now - e.timestamp < CACHE_TTL
    · have hr : some (⟨e.price, true, e.source⟩ : PriceResult) = some r := by
        simpa [getCachedPrice, h1, h2] using h
      cases hr
      exact ⟨e, rfl, rfl⟩
    · simp [getCachedPrice, h1, h2] at h

theorem getTokenPrice_nosrc (env : FetchEnv) (now : ℤ) (a : ℕ) (c : Cache)
    (hok : CacheOk c) (hsrc : (getTokenPrice env now a c).1.source = Source.nosrc) :
    (getTokenPrice env now a c).2.1 = c ∧ (getTokenPrice env now a c).2.2 ≠ [] := by
  rcases h0 : getCachedPrice c now a with _ | r
  · rcases hc : cgHitFor env a with _ | p
    · rcases hm : env.moralis a with _ | q
      · rw [getTokenPrice_fail env now a c h0 hc (Or.inl hm)]
        exact ⟨rfl, by simp⟩
      · by_cases h3 : q.num = 0
        · rw [getTokenPrice_fail env now a c h0 hc (Or.inr ⟨q, hm, h3⟩)]
          exact ⟨rfl, by simp⟩
        · rw [getTokenPrice_moralis env now a c q h0 hc hm h3] at hsrc
          cases hsrc
    · rw [getTokenPrice_cg env now a c p h0 hc] at hsrc
      cases hsrc
  · exfalso
    rcases getCachedPrice_inv c now a r h0 with ⟨e, he, hr⟩
    rw [getTokenPrice_hit env now a c r h0, hr] at hsrc
    rcases (hok (a, e) (cacheGet_mem c a e he)).1 with h3 | h3 <;> rw [h3] at hsrc <;>
      cases hsrc

/-- Claim C10 (confirmed, assuming the upstream APIs report nonnegative
prices): lookups preserve the invariant that every cache entry carries
source `coingecko` or `moralis` and a positive price (so only successful
positive fetches are ever written); and a lookup for which both sources
fail returns source `none`, leaves the cache unchanged, and has made a
fetch attempt — so repeated lookups of an unpriceable token re-attempt
the network fetch on every call (no negative caching). -/
theorem c10_cache_discipline (env : FetchEnv) (now : ℤ) (a : ℕ) (addrs : List ℕ)
    (c : Cache) (hnn : EnvNonneg env) (hok : CacheOk c) :
    CacheOk ((getTokenPrice env now a c).2.1) ∧
      CacheOk ((getTokenPrices env now addrs c).2.1) ∧
      ((getTokenPrice env now a c).1.source = Source.nosrc →
        (getTokenPrice env now a c).2.1 = c ∧ (getTokenPrice env now a c).2.2 ≠ []) :=
  ⟨getTokenPrice_cacheOk env now a c hnn hok,
    getTokenPrices_cacheOk env now addrs c hnn hok,
    fun hsrc => getTokenPrice_nosrc env now a c hok hsrc⟩

theorem lookupR_setR (rs : List (ℕ × PriceResult)) (b : ℕ) (r : PriceResult) (a : ℕ) :
    lookupR (setR rs b r) a = if b = a then some r else lookupR rs a := by
  induction rs with
  | nil => by_cases h : b = a <;> simp [setR, lookupR, h]
  | cons x rest ih =>
    by_cases h1 : x.1 = b
    · by_cases h2 : b = a
      · simp [setR, lookupR, h1, h2]
      · have h3 : ¬ x.1 = a := fun h => h2 (h1.symm.trans h)
        simp [setR, lookupR, h1, h2, h3]
    · by_cases h2 : x.1 = a
      · have h3 : ¬ b = a := fun h => h1 (h2.trans h.symm)
        have h4 : ¬ a = b := fun h => h3 h.symm
        simp [setR, lookupR, h1, h2, h3, h4]
      · simp [setR, lookupR, h1, h2, ih]

theorem cacheScan_mem_uncached (c : Cache) (now : ℤ) :
    ∀ (addrs : List ℕ) (x : ℕ), x ∈ (cacheScan c now addrs).2 →
      getCachedPrice c now x = none := by
  intro addrs
  induction addrs with
  | nil => intro x hx; cases hx
  | cons a rest ih =>
    intro x hx
    rw [cacheScan] at hx
    rcases hh : getCachedPrice c now a with _ | r <;> rw [hh] at hx <;> simp only at hx
    · rcases List.mem_cons.mp hx with h | h
      · rw [h]; exact hh
      · exact ih x h
    · exact ih x hx

theorem cacheScan_lookupR_none (c : Cache) (now : ℤ) :
    ∀ (addrs : List ℕ) (x : ℕ), getCachedPrice c now x = none →
      lookupR (cacheScan c now addrs).1 x = none := by
  intro addrs
  induction addrs with
  | nil => intro x _; rfl
  | cons a rest ih =>
    intro x hx
    rw [cacheScan]
    rcases hh : getCachedPrice c now a with _ | r <;> simp only
    · exact ih x hx
    · have hax : ¬ a = x := by
        intro h
        rw [h, hx] at hh
        cases hh
      rw [lookupR, if_neg hax]
      exact ih x hx

theorem cgWrite_lookupR_notin (now : ℤ) :
    ∀ (ps : List (ℕ × Frac)) (rs : List (ℕ × PriceResult)) (c : Cache) (a : ℕ),
      (∀ p, (a, p) ∉ ps) → lookupR (cgWrite now ps rs c).1 a = lookupR rs a := by
  intro ps
  induction ps with
  | nil => intro rs c a _; rfl
  | cons x rest ih =>
    intro rs c a hni
    have hxa : ¬ x.1 = a := by
      intro h
      exact hni x.2 (by
        have : (a, x.2) = x := by rw [← h]
        rw [this]
        exact List.mem_cons_self x rest)
    have hni2 : ∀ p, (a, p) ∉ rest := fun p hp => hni p (List.mem_cons_of_mem x hp)
    rw [cgWrite]
    by_cases hx : 0 < x.2.num
    · rw [if_pos hx, ih _ _ _ hni2, lookupR_setR]
      rw [if_neg hxa]
    · rw [if_neg hx]
      exact ih _ _ _ hni2

theorem cgWrite_unpriced (now : ℤ) :
    ∀ (ps : List (ℕ × Frac)) (rs : List (ℕ × PriceResult)) (c : Cache) (a : ℕ),
      (ps.map Prod.fst).Nodup →
      (match lookupP ps a with
        | none => True
        | some p => p.num ≤ 0) →
      lookupR (cgWrite now ps rs c).1 a = lookupR rs a := by
  intro ps
  induction ps with
  | nil => intro rs c a _ _; rfl
  | cons x rest ih =>
    intro rs c a hnd hm
    have hnd2 := (List.nodup_cons.mp hnd).2
    have hx1 := (List.nodup_cons.mp hnd).1
    by_cases hb : x.1 = a
    · have hv : lookupP (x :: rest) a = some x.2 := by
        rw [lookupP, if_pos hb]
      rw [hv] at hm
      have hnp : ¬ 0 < x.2.num := by omega
      rw [cgWrite, if_neg hnp]
      have hni : ∀ p, (a, p) ∉ rest := by
        intro p hp
        exact hx1 (hb ▸ (List.mem_map.mpr ⟨(a, p), hp, rfl⟩))
      exact cgWrite_lookupR_notin now rest rs c a hni
    · have hv : lookupP (x :: rest) a = lookupP rest a := by
        rw [lookupP, if_neg hb]
      rw [hv] at hm
      rw [cgWrite]
      by_cases hx : 0 < x.2.num
      · rw [if_pos hx, ih _ _ _ hnd2 hm, lookupR_setR, if_neg hb]
      · rw [if_neg hx]
        exact ih _ _ _ hnd2 hm

theorem moralisLoop_log_mono (env : FetchEnv) (now : ℤ) :
    ∀ (rest : List ℕ) (rs : List (ℕ × PriceResult)) (c : Cache) (log : List Fetch)
      (x : Fetch), x ∈ log → x ∈ (moralisLoop env now rest rs c log).2.2 := by
  intro rest
  induction rest with
  | nil => intro rs c log x hx; exact hx
  | cons a rest2 ih =>
    intro rs c log x hx
    rw [moralisLoop]
    by_cases hneed : (match lookupR rs a with
      | none => true
      | some r => decide (r.price.num = 0)) = true
    · simp only [hneed, if_pos]
      rcases h2 : env.moralis a with _ | p <;> simp only [h2]
      · exact ih _ _ _ x (List.mem_append_left _ hx)
      · by_cases h3 : p.num = 0
        · simp only [h3, if_pos]
          exact ih _ _ _ x (List.mem_append_left _ hx)
        · rw [if_neg h3]
          exact ih _ _ _ x (List.mem_append_left _ hx)
    · simp only [hneed]
      exact ih _ _ _ x hx

theorem moralisLoop_attempt (env : FetchEnv) (now : ℤ) (a : ℕ) :
    ∀ (rest : List ℕ) (rs : List (ℕ × PriceResult)) (c : Cache) (log : List Fetch),
      a ∈ rest →
      (lookupR rs a = none ∨ ∃ r, lookupR rs a = some r ∧ r.price.num = 0) →
      Fetch.mk Source.moralis [a] ∈ (moralisLoop env now rest rs c log).2.2 := by
  intro rest
  induction rest with
  | nil => intro rs c log hx _; cases hx
  | cons b rest2 ih =>
    intro rs c log hmem hcond
    rw [moralisLoop]
    by_cases hb : b = a
    · subst hb
      have hneed : (match lookupR rs b with
          | none => true
          | some r => decide (r.price.num = 0)) = true := by
        rcases hcond with h2 | ⟨r, h2, h3⟩
        · simp [h2]
        · simp [h2, h3]
      simp only [hneed, if_pos]
      have hmm : Fetch.mk Source.moralis [b] ∈ log ++ [Fetch.mk Source.moralis [b]] :=
        List.mem_append_right _ (List.mem_singleton_self _)
      rcases h2 : env.moralis b with _ | p <;> simp only [h2]
      · exact moralisLoop_log_mono env now _ _ _ _ _ hmm
      · by_cases h3 : p.num = 0
        · simp only [h3, if_pos]
          exact moralisLoop_log_mono env now _ _ _ _ _ hmm
        · rw [if_neg h3]
          exact moralisLoop_log_mono env now _ _ _ _ _ hmm
    · have hmem2 : a ∈ rest2 := by
        rcases List.mem_cons.mp hmem with h | h
        · exact absurd h.symm hb
        · exact h
      by_cases hneed : (match lookupR rs b with
        | none => true
        | some r => decide (r.price.num = 0)) = true
      · simp only [hneed, if_pos]
        have hpres : ∀ r0 : PriceResult,
            lookupR (setR rs b r0) a = none ∨
              ∃ r, lookupR (setR rs b r0) a = some r ∧ r.price.num = 0 := by
          intro r0
          rw [lookupR_setR, if_neg hb]
          exact hcond
        rcases h2 : env.moralis b with _ | p <;> simp only [h2]
        · exact ih _ _ _ hmem2 (hpres _)
        · by_cases h3 : p.num = 0
          · simp only [h3, if_pos]
            exact ih _ _ _ hmem2 (hpres _)
          · rw [if_neg h3]
            exact ih _ _ _ hmem2 (hpres _)
      · simp only [hneed]
        exact ih _ _ _ hmem2 hcond

theorem moralisLoop_zero_preserved (env : FetchEnv) (now : ℤ) (a : ℕ)
    (hma : ∀ p, env.moralis a = some p → p.num = 0) :
    ∀ (rest : List ℕ) (rs : List (ℕ × PriceResult)) (c : Cache) (log : List Fetch),
      lookupR rs a = some ⟨fzero, false, Source.nosrc⟩ →
      lookupR (moralisLoop env now rest rs c log).1 a =
        some ⟨fzero, false, Source.nosrc⟩ := by
  intro rest
  induction rest with
  | nil => intro rs c log h; exact h
  | cons b rest2 ih =>
    intro rs c log hcur
    rw [moralisLoop]
    by_cases hb : b = a
    · subst hb
      have hneed : (match lookupR rs b with
          | none => true
          | some r => decide (r.price.num = 0)) = true := by
        simp [hcur, fzero]
      simp only [hneed, if_pos]
      have hset : lookupR (setR rs b ⟨fzero, false, Source.nosrc⟩) b =
          some ⟨fzero, false, Source.nosrc⟩ := by
        rw [lookupR_setR, if_pos rfl]
      rcases h2 : env.moralis b with _ | p <;> simp only [h2]
      · exact ih _ _ _ hset
      · have h3 := hma p h2
        simp only [h3, if_pos]
        exact ih _ _ _ hset
    · have hpres : ∀ r0 : PriceResult,
          lookupR (setR rs b r0) a = some ⟨fzero, false, Source.nosrc⟩ := by
        intro r0
        rw [lookupR_setR, if_neg hb]
        exact hcur
      by_cases hneed : (match lookupR rs b with
        | none => true
        | some r => decide (r.price.num = 0)) = true
      · simp only [hneed, if_pos]
        rcases h2 : env.moralis b with _ | p <;> simp only [h2]
        · exact ih _ _ _ (hpres _)
        · by_cases h3 : p.num = 0
          · simp only [h3, if_pos]
            exact ih _ _ _ (hpres _)
          · rw [if_neg h3]
            exact ih _ _ _ (hpres _)
      · simp only [hneed]
        exact ih _ _ _ hcur

theorem moralisLoop_fail_result (env : FetchEnv) (now : ℤ) (a : ℕ)
    (hma : ∀ p, env.moralis a = some p → p.num = 0) :
    ∀ (rest : List ℕ) (rs : List (ℕ × PriceResult)) (c : Cache) (log : List Fetch),
      a ∈ rest →
      (lookupR rs a = none ∨ ∃ r, lookupR rs a = some r ∧ r.price.num = 0) →
      lookupR (moralisLoop env now rest rs c log).1 a =
        some ⟨fzero, false, Source.nosrc⟩ := by
  intro rest
  induction rest with
  | nil => intro rs c log hx _; cases hx
  | cons b rest2 ih =>
    intro rs c log hmem hcond
    rw [moralisLoop]
    by_cases hb : b = a
    · subst hb
      have hneed : (match lookupR rs b with
          | none => true
          | some r => decide (r.price.num = 0)) = true := by
        rcases hcond with h2 | ⟨r, h2, h3⟩
        · simp [h2]
        · simp [h2, h3]
      simp only [hneed, if_pos]
      have hset : lookupR (setR rs b ⟨fzero, false, Source.nosrc⟩) b =
          some ⟨fzero, false, Source.nosrc⟩ := by
        rw [lookupR_setR, if_pos rfl]
      rcases h2 : env.moralis b with _ | p <;> simp only [h2]
      · exact moralisLoop_zero_preserved env now b hma _ _ _ _ hset
      · have h3 := hma p h2
        simp only [h3, if_pos]
        exact moralisLoop_zero_preserved env now b hma _ _ _ _ hset
    · have hmem2 : a ∈ rest2 := by
        rcases List.mem_cons.mp hmem with h | h
        · exact absurd h.symm hb
        · exact h
      by_cases hneed : (match lookupR rs b with
        | none => true
        | some r => decide (r.price.num = 0)) = true
      · simp only [hneed, if_pos]
        have hpres : ∀ r0 : PriceResult,
            lookupR (setR rs b r0) a = none ∨
              ∃ r, lookupR (setR rs b r0) a = some r ∧ r.price.num = 0 := by
          intro r0
          rw [lookupR_setR, if_neg hb]
          exact hcond
        rcases h2 : env.moralis b with _ | p <;> simp only [h2]
        · exact ih _ _ _ hmem2 (hpres _)
        · by_cases h3 : p.num = 0
          · simp only [h3, if_pos]
            exact ih _ _ _ hmem2 (hpres _)
          · rw [if_neg h3]
            exact ih _ _ _ hmem2 (hpres _)
      · simp only [hneed]
        exact ih _ _ _ hmem2 hcond

theorem cgHitFor_none_of_unpriced (env : FetchEnv) (a : ℕ) (hnn : EnvNonneg env)
    (hcg : cgUnpriced env [a] a) : cgHitFor env a = none := by
  rcases h1 : env.cg [a] with _ | ps
  · simp [cgHitFor, h1]
  · rcases h2 : lookupP ps a with _ | p
    · simp [cgHitFor, h1, h2]
    · have hle : p.num ≤ 0 := by
        simpa [cgUnpriced, h1, h2] using hcg
      have hge : 0 ≤ p.num := hnn.1 [a] ps h1 (a, p) (lookupP_mem ps a p h2)
      have h0 : p.num = 0 := le_antisymm hle hge
      simp [cgHitFor, h1, h2, h0]

theorem moralis_zero_of_unpriced (env : FetchEnv) (a : ℕ) (hnn : EnvNonneg env)
    (hm : moralisUnpriced env a) : ∀ p, env.moralis a = some p → p.num = 0 := by
  intro p hp
  have hle : p.num ≤ 0 := by
    simpa [moralisUnpriced, hp] using hm
  exact le_antisymm hle (hnn.2 a p hp)

theorem moralis_fail_cases (env : FetchEnv) (a : ℕ) (hnn : EnvNonneg env)
    (hm : moralisUnpriced env a) :
    env.moralis a = none ∨ ∃ p, env.moralis a = some p ∧ p.num = 0 := by
  rcases h1 : env.moralis a with _ | p
  · left; rfl
  · right
    exact ⟨p, rfl, moralis_zero_of_unpriced env a hnn hm p h1⟩

theorem c7_single (env : FetchEnv) (now : ℤ) (a : ℕ) (c : Cache) (hnn : EnvNonneg env)
    (hmiss : getCachedPrice c now a = none) (hcg : cgUnpriced env [a] a) :
    Fetch.mk Source.moralis [a] ∈ (getTokenPrice env now a c).2.2 ∧
      (moralisUnpriced env a →
        (getTokenPrice env now a c).1 = ⟨fzero, false, Source.nosrc⟩) := by
  have hc := cgHitFor_none_of_unpriced env a hnn hcg
  constructor
  · rcases hm : env.moralis a with _ | p
    · rw [getTokenPrice_fail env now a c hmiss hc (Or.inl hm)]
      simp
    · by_cases h3 : p.num = 0
      · rw [getTokenPrice_fail env now a c hmiss hc (Or.inr ⟨p, hm, h3⟩)]
        simp
      · rw [getTokenPrice_moralis env now a c p hmiss hc hm h3]
        simp
  · intro hm
    rw [getTokenPrice_fail env now a c hmiss hc (moralis_fail_cases env a hnn hm)]

/-- Claim C7 (confirmed, assuming the upstream APIs report nonnegative
prices and CoinGecko responses are JSON objects with unique keys): in
both `getTokenPrice` and `getTokenPrices`, an uncached identifier not
priced by the primary response (errored call, omitted, or price <= 0)
gets an individual (not batched) Moralis fetch, and if the fallback also
fails the result is price 0 with source `none` rather than an
exception. -/
theorem c7_fallback_isolation (env : FetchEnv) (now : ℤ) (a : ℕ) (c : Cache)
    (addrs : List ℕ) (hnn : EnvNonneg env) (huniq : CGKeysUnique env) :
    (getCachedPrice c now a = none → cgUnpriced env [a] a →
      Fetch.mk Source.moralis [a] ∈ (getTokenPrice env now a c).2.2 ∧
        (moralisUnpriced env a →
          (getTokenPrice env now a c).1 = ⟨fzero, false, Source.nosrc⟩)) ∧
    (a ∈ (cacheScan c now addrs).2 → cgUnpriced env (cacheScan c now addrs).2 a →
      Fetch.mk Source.moralis [a] ∈ (getTokenPrices env now addrs c).2.2 ∧
        (moralisUnpriced env a →
          lookupR (getTokenPrices env now addrs c).1 a =
            some ⟨fzero, false, Source.nosrc⟩)) := by
  constructor
  · exact fun hmiss hcg => c7_single env now a c hnn hmiss hcg
  · intro hmem hcg
    have hmiss : getCachedPrice c now a = none :=
      cacheScan_mem_uncached c now addrs a hmem
    have hnone : lookupR (cacheScan c now addrs).1 a = none :=
      cacheScan_lookupR_none c now addrs a hmiss
    have hne : (cacheScan c now addrs).2.isEmpty = false := by
      rcases h : (cacheScan c now addrs).2 with _ | _
      · rw [h] at hmem; cases hmem
      · rfl
    simp only [getTokenPrices, hne, Bool.false_eq_true, if_false]
    rcases h1 : env.cg (cacheScan c now addrs).2 with _ | ps <;> simp only [h1]
    · constructor
      · exact moralisLoop_attempt env now a _ _ _ _ hmem (Or.inl hnone)
      · intro hm
        exact moralisLoop_fail_result env now a
          (moralis_zero_of_unpriced env a hnn hm) _ _ _ _ hmem (Or.inl hnone)
    · have hcond : (match lookupP ps a with
          | none => True
          | some p => p.num ≤ 0) := by
        simpa [cgUnpriced, h1] using hcg
      have hw : lookupR (cgWrite now ps (cacheScan c now addrs).1 c).1 a = none := by
        rw [cgWrite_unpriced now ps _ c a (huniq _ ps h1) hcond]
        exact hnone
      constructor
      · exact moralisLoop_attempt env now a _ _ _ _ hmem (Or.inl hw)
      · intro hm
        exact moralisLoop_fail_result env now a
          (moralis_zero_of_unpriced env a hnn hm) _ _ _ _ hmem (Or.inl hw)

theorem cacheGet_cacheSet_ne (c : Cache) (a : ℕ) (e : CacheEntry) (b : ℕ) (hba : b ≠ a) :
    cacheGet (cacheSet c a e) b = cacheGet c b := by
  induction c with
  | nil =>
    rw [cacheSet, cacheGet, cacheGet, if_neg (fun h => hba h.symm)]
    rfl
  | cons x rest ih =>
    rw [cacheSet]
    by_cases h1 : x.1 = a
    · rw [if_pos h1]
      have hx : ¬ x.1 = b := by rw [h1]; exact fun h => hba h.symm
      rw [cacheGet, cacheGet, if_neg (fun h => hba h.symm), if_neg hx]
    · rw [if_neg h1]
      by_cases h2 : x.1 = b
      · rw [cacheGet, cacheGet, if_pos h2, if_pos h2]
      · rw [cacheGet, cacheGet, if_neg h2, if_neg h2, ih]

theorem getTokenPrice_result_congr (env : FetchEnv) (now : ℤ) (a : ℕ) (c c2 : Cache)
    (h : cacheGet c a = cacheGet c2 a) :
    (getTokenPrice env now a c).1 = (getTokenPrice env now a c2).1 := by
  have hgc : getCachedPrice c now a = getCachedPrice c2 now a := by
    rw [getCachedPrice, getCachedPrice, h]
  rcases h0 : getCachedPrice c2 now a with _ | r
  · have h0' : getCachedPrice c now a = none := by rw [hgc, h0]
    rcases hc : cgHitFor env a with _ | p
    · rcases hm : env.moralis a with _ | q
      · rw [getTokenPrice_fail env now a c h0' hc (Or.inl hm),
          getTokenPrice_fail env now a c2 h0 hc (Or.inl hm)]
      · by_cases h3 : q.num = 0
        · rw [getTokenPrice_fail env now a c h0' hc (Or.inr ⟨q, hm, h3⟩),
            getTokenPrice_fail env now a c2 h0 hc (Or.inr ⟨q, hm, h3⟩)]
        · rw [getTokenPrice_moralis env now a c q h0' hc hm h3,
            getTokenPrice_moralis env now a c2 q h0 hc hm h3]
    · rw [getTokenPrice_cg env now a c p h0' hc, getTokenPrice_cg env now a c2 p h0 hc]
  · have h0' : getCachedPrice c now a = some r := by rw [hgc, h0]
    rw [getTokenPrice_hit env now a c r h0', getTokenPrice_hit env now a c2 r h0]

theorem getTokenPrice_cache_preserves (env : FetchEnv) (now : ℤ) (a : ℕ) (c : Cache)
    (b : ℕ) (hba : b ≠ a) :
    cacheGet ((getTokenPrice env now a c).2.1) b = cacheGet c b := by
  rcases h0 : getCachedPrice c now a with _ | r
  · rcases hc : cgHitFor env a with _ | p
    · rcases hm : env.moralis a with _ | q
      · rw [getTokenPrice_fail env now a c h0 hc (Or.inl hm)]
      · by_cases h3 : q.num = 0
        · rw [getTokenPrice_fail env now a c h0 hc (Or.inr ⟨q, hm, h3⟩)]
        · rw [getTokenPrice_moralis env now a c q h0 hc hm h3]
          exact cacheGet_cacheSet_ne c a _ b hba
    · rw [getTokenPrice_cg env now a c p h0 hc]
      exact cacheGet_cacheSet_ne c a _ b hba
  · rw [getTokenPrice_hit env now a c r h0]

theorem processToken_cache (env : FetchEnv) (now : ℤ) (per : Frac) (t : Tok) (c : Cache) :
    (processToken env now per t c).2.1 = (getTokenPrice env now t.addr c).2.1 := by
  rw [processToken]
  split
  · rfl
  · split <;> rfl

theorem processToken_log (env : FetchEnv) (now : ℤ) (per : Frac) (t : Tok) (c : Cache) :
    (processToken env now per t c).2.2 = (getTokenPrice env now t.addr c).2.2 := by
  rw [processToken]
  split
  · rfl
  · split <;> rfl

theorem processTokens_cons (env : FetchEnv) (now : ℤ) (per : Frac) (t : Tok)
    (ts : List Tok) (c : Cache) :
    processTokens env now per (t :: ts) c =
      ((processToken env now per t c).1 ++
          (processTokens env now per ts (processToken env now per t c).2.1).1,
        (processTokens env now per ts (processToken env now per t c).2.1).2.1,
        (processToken env now per t c).2.2 ++
          (processTokens env now per ts (processToken env now per t c).2.1).2.2) := rfl

theorem processToken_factor (env : FetchEnv) (now : ℤ) (per : Frac) (t : Tok) (c : Cache) :
    (processToken env now per t c).1 =
      (pureLine (fun x => (getTokenPrice env now x c).1) per t).toList := by
  rw [processToken, pureLine, clampAmt]
  by_cases h1 : ((getTokenPrice env now t.addr c).1).price.num = 0
  · simp [h1]
  · by_cases h2 : (t.balance : ℤ) <
        floorF (dMul (dDiv per ((getTokenPrice env now t.addr c).1).price) (dPow10 t.decimals))
    · simp [h1, h2]
    · simp [h1, h2]

theorem pureLines_cons (ρ : ℕ → PriceResult) (per : Frac) (t : Tok) (ts : List Tok) :
    pureLines ρ per (t :: ts) = (pureLine ρ per t).toList ++ pureLines ρ per ts := by
  rw [pureLines, List.filterMap_cons]
  rcases pureLine ρ per t with _ | x <;> simp [pureLines]

theorem pureLine_congr (ρ1 ρ2 : ℕ → PriceResult) (per : Frac) (t : Tok)
    (ht : ρ1 t.addr = ρ2 t.addr) : pureLine ρ1 per t = pureLine ρ2 per t := by
  rw [pureLine, pureLine, ht]

theorem pureLines_congr (ρ1 ρ2 : ℕ → PriceResult) (per : Frac) (toks : List Tok)
    (h : ∀ t ∈ toks, ρ1 t.addr = ρ2 t.addr) :
    pureLines ρ1 per toks = pureLines ρ2 per toks :=
  List.filterMap_congr fun t ht => pureLine_congr ρ1 ρ2 per t (h t ht)

theorem processTokens_cache_preserves (env : FetchEnv) (now : ℤ) (per : Frac) :
    ∀ (toks : List Tok) (c : Cache) (b : ℕ), b ∉ toks.map Tok.addr →
      cacheGet ((processTokens env now per toks c).2.1) b = cacheGet c b := by
  intro toks
  induction toks with
  | nil => intro c b _; rfl
  | cons t ts ih =>
    intro c b hb
    have hbt : b ≠ t.addr := fun h =>
      hb (by rw [h, List.map_cons]; exact List.mem_cons_self _ _)
    have hbts : b ∉ ts.map Tok.addr := fun h =>
      hb (by rw [List.map_cons]; exact List.mem_cons_of_mem _ h)
    rw [processTokens_cons]
    show cacheGet ((processTokens env now per ts (processToken env now per t c).2.1).2.1) b =
      cacheGet c b
    rw [ih _ b hbts, processToken_cache, getTokenPrice_cache_preserves env now t.addr c b hbt]

theorem processTokens_factor (env : FetchEnv) (now : ℤ) (per : Frac) :
    ∀ (toks : List Tok) (c : Cache), (toks.map Tok.addr).Nodup →
      (processTokens env now per toks c).1 =
        pureLines (fun x => (getTokenPrice env now x c).1) per toks := by
  intro toks
  induction toks with
  | nil => intro c _; rfl
  | cons t ts ih =>
    intro c hnd
    rw [List.map_cons, List.nodup_cons] at hnd
    rw [processTokens_cons]
    show (processToken env now per t c).1 ++
        (processTokens env now per ts (processToken env now per t c).2.1).1 =
      pureLines (fun x => (getTokenPrice env now x c).1) per (t :: ts)
    rw [pureLines_cons, processToken_factor, ih _ hnd.2, processToken_cache]
    congr 1
    apply pureLines_congr
    intro u hu
    exact getTokenPrice_result_congr env now u.addr _ c
      (getTokenPrice_cache_preserves env now t.addr c u.addr
        (fun h => hnd.1 (h ▸ List.mem_map.mpr ⟨u, hu, rfl⟩)))

theorem availF_inv (tre : ℕ → Option (ℕ × ℕ)) (a : ℕ) (t : Tok)
    (h : availF tre a = some t) :
    t.addr = a ∧ tre a = some (t.balance, t.decimals) ∧ 0 < t.balance := by
  rcases h1 : tre a with _ | bd
  · simp [availF, h1] at h
  · by_cases h2 : 0 < bd.1
    · have hq : some (⟨a, bd.1, bd.2⟩ : Tok) = some t := by
        simpa [availF, h1, h2] using h
      cases hq
      exact ⟨rfl, rfl, h2⟩
    · simp [availF, h1, h2] at h

theorem avail_mem (tre : ℕ → Option (ℕ × ℕ)) (t : Tok)
    (h : t ∈ getAvailableTokensInTreasury tre) :
    tre t.addr = some (t.balance, t.decimals) ∧ 0 < t.balance := by
  rcases List.mem_filterMap.mp h with ⟨a, _, hf⟩
  rcases availF_inv tre a t hf with ⟨ha, h2, h3⟩
  exact ⟨by rw [ha]; exact h2, h3⟩

theorem treasuryBalance_of_mem (tre : ℕ → Option (ℕ × ℕ)) (t : Tok)
    (h : t ∈ getAvailableTokensInTreasury tre) :
    treasuryBalance tre t.addr = t.balance := by
  rw [treasuryBalance, (avail_mem tre t h).1]

theorem filterMap_availF_addr_mem (tre : ℕ → Option (ℕ × ℕ)) :
    ∀ (l : List ℕ) (t : Tok), t ∈ l.filterMap (availF tre) → t.addr ∈ l := by
  intro l t h
  rcases List.mem_filterMap.mp h with ⟨a, hal, hf⟩
  rw [(availF_inv tre a t hf).1]
  exact hal

theorem avail_addr_nodup (tre : ℕ → Option (ℕ × ℕ)) :
    ((getAvailableTokensInTreasury tre).map Tok.addr).Nodup := by
  have key : ∀ l : List ℕ, l.Nodup → ((l.filterMap (availF tre)).map Tok.addr).Nodup := by
    intro l
    induction l with
    | nil => intro _; exact List.nodup_nil
    | cons a rest ih =>
      intro hnd
      rw [List.nodup_cons] at hnd
      rcases hf : availF tre a with _ | t
      · rw [List.filterMap_cons, hf]
        exact ih hnd.2
      · rw [List.filterMap_cons, hf, List.map_cons, List.nodup_cons]
        refine ⟨?_, ih hnd.2⟩
        intro hmem
        rcases List.mem_map.mp hmem with ⟨u, hu, hue⟩
        exact hnd.1 (by
          rw [← (availF_inv tre a t hf).1, ← hue]
          exact filterMap_availF_addr_mem tre rest u hu)
  exact key watchlist (by decide)

theorem sponsoredOf_addr_nodup (tre : ℕ → Option (ℕ × ℕ)) (sponsors : List ℕ) :
    ((sponsoredOf tre sponsors).map Tok.addr).Nodup :=
  (avail_addr_nodup tre).sublist ((List.filter_sublist _).map Tok.addr)

theorem nonSponsoredOf_addr_nodup (tre : ℕ → Option (ℕ × ℕ)) (sponsors : List ℕ) :
    ((nonSponsoredOf tre sponsors).map Tok.addr).Nodup :=
  (avail_addr_nodup tre).sublist ((List.filter_sublist _).map Tok.addr)

theorem otherSelection_addr_nodup (tre : ℕ → Option (ℕ × ℕ)) (sponsors : List ℕ)
    (shuffle : List Tok → List Tok) (hperm : ∀ l, (shuffle l).Perm l) :
    ((otherSelectionD tre sponsors shuffle).map Tok.addr).Nodup := by
  have h2 : ((shuffle (nonSponsoredOf tre sponsors)).map Tok.addr).Nodup :=
    (((hperm (nonSponsoredOf tre sponsors)).map Tok.addr).nodup_iff).mpr
      (nonSponsoredOf_addr_nodup tre sponsors)
  exact h2.sublist ((List.take_sublist _ _).map Tok.addr)

theorem sponsoredOf_subset_avail (tre : ℕ → Option (ℕ × ℕ)) (sponsors : List ℕ)
    (t : Tok) (h : t ∈ sponsoredOf tre sponsors) : t ∈ getAvailableTokensInTreasury tre :=
  (List.mem_filter.mp h).1

theorem nonSponsoredOf_subset_avail (tre : ℕ → Option (ℕ × ℕ)) (sponsors : List ℕ)
    (t : Tok) (h : t ∈ nonSponsoredOf tre sponsors) : t ∈ getAvailableTokensInTreasury tre :=
  (List.mem_filter.mp h).1

theorem otherSelection_subset (tre : ℕ → Option (ℕ × ℕ)) (sponsors : List ℕ)
    (shuffle : List Tok → List Tok) (hsub : ∀ l, ∀ u ∈ shuffle l, u ∈ l)
    (u : Tok) (h : u ∈ otherSelectionD tre sponsors shuffle) :
    u ∈ nonSponsoredOf tre sponsors :=
  hsub _ u ((List.take_sublist _ _).subset h)

theorem sponsor_other_disjoint (tre : ℕ → Option (ℕ × ℕ)) (sponsors : List ℕ)
    (t u : Tok) (ht : t ∈ sponsoredOf tre sponsors) (hu : u ∈ nonSponsoredOf tre sponsors) :
    u.addr ≠ t.addr := by
  intro he
  have h1 := List.mem_filter.mp ht
  have h2 := List.mem_filter.mp hu
  have heq := List.inj_on_of_nodup_map (avail_addr_nodup tre) h2.1 h1.1 he
  rw [heq] at h2
  have hb := h2.2
  rw [h1.2] at hb
  cases hb

theorem selectBody_empty (env : FetchEnv) (now : ℤ) (tre : ℕ → Option (ℕ × ℕ))
    (sponsors : List ℕ) (shuffle : List Tok → List Tok) (E : ℕ) (c0 : Cache)
    (h : getAvailableTokensInTreasury tre = []) :
    selectBody env now tre sponsors shuffle E c0 =
      Except.error "No tokens available in TokenTreasury" := by
  simp [selectBody, h]

theorem select_empty (env : FetchEnv) (now : ℤ) (tre : ℕ → Option (ℕ × ℕ))
    (sponsors : List ℕ) (shuffle : List Tok → List Tok) (E : ℕ) (c0 : Cache)
    (h : getAvailableTokensInTreasury tre = []) :
    (selectTokensForTier env now tre sponsors shuffle E c0).1 = ⟨[USDC], [(E : ℤ)]⟩ := by
  rw [selectTokensForTier, selectBody_empty env now tre sponsors shuffle E c0 h]

theorem select_ok_shape (env : FetchEnv) (now : ℤ) (tre : ℕ → Option (ℕ × ℕ))
    (sponsors : List ℕ) (shuffle : List Tok → List Tok) (E : ℕ) (c0 : Cache)
    (h : getAvailableTokensInTreasury tre ≠ []) :
    (selectTokensForTier env now tre sponsors shuffle E c0).1 =
      ⟨(selLinesD env now tre sponsors shuffle E c0).map Prod.fst,
        (selLinesD env now tre sponsors shuffle E c0).map Prod.snd⟩ := by
  have hne : (getAvailableTokensInTreasury tre).isEmpty = false := by
    rcases hh : getAvailableTokensInTreasury tre with _ | _
    · exact absurd hh h
    · rfl
  simp only [selectTokensForTier, selectBody, selLinesD, hne, Bool.false_eq_true, if_false]

theorem sponsorPass_agree (tre : ℕ → Option (ℕ × ℕ)) (sponsors : List ℕ) (E : ℕ)
    (env1 : FetchEnv) (now1 : ℤ) (c1 : Cache) (env2 : FetchEnv) (now2 : ℤ) (c2 : Cache)
    (hag : ∀ a ∈ (getAvailableTokensInTreasury tre).map Tok.addr,
      (getTokenPrice env1 now1 a c1).1 = (getTokenPrice env2 now2 a c2).1) :
    (sponsorPassD env1 now1 tre sponsors E c1).1 =
      (sponsorPassD env2 now2 tre sponsors E c2).1 := by
  rw [sponsorPassD, sponsorPassD]
  by_cases hl : 0 < (sponsoredOf tre sponsors).length
  · rw [if_pos hl, if_pos hl,
      processTokens_factor env1 now1 _ _ c1 (sponsoredOf_addr_nodup tre sponsors),
      processTokens_factor env2 now2 _ _ c2 (sponsoredOf_addr_nodup tre sponsors)]
    apply pureLines_congr
    intro u hu
    exact hag u.addr
      (List.mem_map.mpr ⟨u, sponsoredOf_subset_avail tre sponsors u hu, rfl⟩)
  · rw [if_neg hl, if_neg hl]

theorem sponsorPass_cacheGet (env : FetchEnv) (now : ℤ) (tre : ℕ → Option (ℕ × ℕ))
    (sponsors : List ℕ) (E : ℕ) (c : Cache) (b : ℕ)
    (hb : b ∉ (sponsoredOf tre sponsors).map Tok.addr) :
    cacheGet ((sponsorPassD env now tre sponsors E c).2.1) b = cacheGet c b := by
  rw [sponsorPassD]
  by_cases hl : 0 < (sponsoredOf tre sponsors).length
  · rw [if_pos hl]
    exact processTokens_cache_preserves env now _ _ c b hb
  · rw [if_neg hl]

theorem otherPass_agree (tre : ℕ → Option (ℕ × ℕ)) (sponsors : List ℕ)
    (shuffle : List Tok → List Tok) (E : ℕ)
    (env1 : FetchEnv) (now1 : ℤ) (c1 : Cache) (env2 : FetchEnv) (now2 : ℤ) (c2 : Cache)
    (hperm : ∀ l, (shuffle l).Perm l)
    (hag : ∀ a ∈ (getAvailableTokensInTreasury tre).map Tok.addr,
      (getTokenPrice env1 now1 a c1).1 = (getTokenPrice env2 now2 a c2).1) :
    (otherPassD env1 now1 tre sponsors shuffle E
        (sponsorPassD env1 now1 tre sponsors E c1).2.1).1 =
      (otherPassD env2 now2 tre sponsors shuffle E
        (sponsorPassD env2 now2 tre sponsors E c2).2.1).1 := by
  rw [otherPassD, otherPassD]
  by_cases hc : 0 < min 3 (nonSponsoredOf tre sponsors).length ∧ 0 < (otherBudgetD E).num
  · rw [if_pos hc, if_pos hc,
      processTokens_factor env1 now1 _ _ _ (otherSelection_addr_nodup tre sponsors shuffle hperm),
      processTokens_factor env2 now2 _ _ _ (otherSelection_addr_nodup tre sponsors shuffle hperm)]
    apply pureLines_congr
    intro u hu
    have hu1 : u ∈ nonSponsoredOf tre sponsors :=
      otherSelection_subset tre sponsors shuffle (fun l x hx => (hperm l).subset hx) u hu
    have hadd : u.addr ∉ (sponsoredOf tre sponsors).map Tok.addr := by
      intro hmem
      rcases List.mem_map.mp hmem with ⟨v, hv, hve⟩
      exact sponsor_other_disjoint tre sponsors v u hv hu1 hve.symm
    have e1 : cacheGet (sponsorPassD env1 now1 tre sponsors E c1).2.1 u.addr =
        cacheGet c1 u.addr :=
      sponsorPass_cacheGet env1 now1 tre sponsors E c1 u.addr hadd
    have e2 : cacheGet (sponsorPassD env2 now2 tre sponsors E c2).2.1 u.addr =
        cacheGet c2 u.addr :=
      sponsorPass_cacheGet env2 now2 tre sponsors E c2 u.addr hadd
    calc (getTokenPrice env1 now1 u.addr (sponsorPassD env1 now1 tre sponsors E c1).2.1).1
        = (getTokenPrice env1 now1 u.addr c1).1 := by
          apply getTokenPrice_result_congr
          rw [e1]
      _ = (getTokenPrice env2 now2 u.addr c2).1 :=
          hag u.addr (List.mem_map.mpr
            ⟨u, nonSponsoredOf_subset_avail tre sponsors u hu1, rfl⟩)
      _ = (getTokenPrice env2 now2 u.addr (sponsorPassD env2 now2 tre sponsors E c2).2.1).1 := by
          apply getTokenPrice_result_congr
          rw [e2]
  · rw [if_neg hc, if_neg hc]

/-- Claim C9 (confirmed): token selection is deterministic modulo the
explicit random draw — two runs over the same treasury snapshot, sponsor
set and request, with the draw held fixed, return identical token/amount
selections whenever their caches/environments resolve the same price for
every watched available token; the engine output is a pure function of
(snapshot, sponsors, request, resolved prices, draw), holding no state
of its own. -/
theorem c9_pure_of_prices (tre : ℕ → Option (ℕ × ℕ)) (sponsors : List ℕ)
    (shuffle : List Tok → List Tok) (E : ℕ)
    (env1 : FetchEnv) (now1 : ℤ) (c1 : Cache) (env2 : FetchEnv) (now2 : ℤ) (c2 : Cache)
    (hperm : ∀ l, (shuffle l).Perm l)
    (hag : ∀ a ∈ (getAvailableTokensInTreasury tre).map Tok.addr,
      (getTokenPrice env1 now1 a c1).1 = (getTokenPrice env2 now2 a c2).1) :
    (selectTokensForTier env1 now1 tre sponsors shuffle E c1).1 =
      (selectTokensForTier env2 now2 tre sponsors shuffle E c2).1 := by
  by_cases hav : getAvailableTokensInTreasury tre = []
  · rw [select_empty env1 now1 tre sponsors shuffle E c1 hav,
      select_empty env2 now2 tre sponsors shuffle E c2 hav]
  · rw [select_ok_shape env1 now1 tre sponsors shuffle E c1 hav,
      select_ok_shape env2 now2 tre sponsors shuffle E c2 hav]
    have hlines : selLinesD env1 now1 tre sponsors shuffle E c1 =
        selLinesD env2 now2 tre sponsors shuffle E c2 := by
      rw [selLinesD, selLinesD,
        sponsorPass_agree tre sponsors E env1 now1 c1 env2 now2 c2 hag,
        otherPass_agree tre sponsors shuffle E env1 now1 c1 env2 now2 c2 hperm hag]
    rw [hlines]

/-- Claim C4, amended (corrected): in the sponsor pass the budget is
divided by the count of ALL sponsored records in the treasury
(`valuePerSponsor = sponsorBudget / sponsorTokensInTreasury.length`),
not by the count of priced ones; records with price 0 are skipped and
their shares are dropped.  The pass equals the pure filter/map view
`pureLines`, whose divisor is visibly the total sponsored count. -/
theorem c4_amended (env : FetchEnv) (now : ℤ) (tre : ℕ → Option (ℕ × ℕ))
    (sponsors : List ℕ) (E : ℕ) (c : Cache)
    (h : sponsoredOf tre sponsors ≠ []) :
    (sponsorPassD env now tre sponsors E c).1 =
      pureLines (fun x => (getTokenPrice env now x c).1)
        (dDiv (sponsorBudgetD E) (dOfNat (sponsoredOf tre sponsors).length))
        (sponsoredOf tre sponsors) := by
  rw [sponsorPassD, if_pos (List.length_pos.mpr h)]
  exact processTokens_factor env now _ _ c (sponsoredOf_addr_nodup tre sponsors)

theorem dRoundPos_num_nonneg (n d : ℕ) : 0 ≤ (dRoundPos n d).num := by
  simp only [dRoundPos]
  split <;> split <;> exact Int.natCast_nonneg _

theorem dRound_num_nonneg (f : Frac) (h : 0 ≤ f.num) : 0 ≤ (dRound f).num := by
  rw [dRound]
  by_cases h1 : f.num = 0
  · rw [if_pos h1]
    exact le_refl 0
  · rw [if_neg h1, if_pos (lt_of_le_of_ne h (Ne.symm h1))]
    exact dRoundPos_num_nonneg _ _

theorem dMul_num_nonneg (a b : Frac) (ha : 0 ≤ a.num) (hb : 0 ≤ b.num) :
    0 ≤ (dMul a b).num :=
  dRound_num_nonneg _ (mul_nonneg ha hb)

theorem dDiv_num_nonneg (a b : Frac) (ha : 0 ≤ a.num) (hb : 0 < b.num) :
    0 ≤ (dDiv a b).num := by
  rw [dDiv, if_pos hb]
  exact dRound_num_nonneg _ (mul_nonneg ha (Int.natCast_nonneg _))

theorem dPow10_num_nonneg (d : ℕ) : 0 ≤ (dPow10 d).num :=
  dRound_num_nonneg _ (Int.natCast_nonneg _)

theorem floorF_nonneg (f : Frac) (h : 0 ≤ f.num) : 0 ≤ floorF f := by
  rw [floorF, if_pos h]
  exact Int.natCast_nonneg _

theorem cacheNonneg_set (c : Cache) (now : ℤ) (a : ℕ) (p : Frac) (s : Source)
    (hcn : CacheNonneg c) (hp : 0 ≤ p.num) : CacheNonneg (setCachePrice c now a p s) := by
  intro x hx
  rcases cacheSet_mem c a ⟨p, s, now⟩ x hx with h | h
  · subst h; exact hp
  · exact hcn x h

theorem getTokenPrice_price_nonneg (env : FetchEnv) (now : ℤ) (a : ℕ) (c : Cache)
    (hnn : EnvNonneg env) (hcn : CacheNonneg c) :
    0 ≤ ((getTokenPrice env now a c).1).price.num := by
  rcases h0 : getCachedPrice c now a with _ | r
  · rcases hc : cgHitFor env a with _ | p
    · rcases hm : env.moralis a with _ | q
      · rw [getTokenPrice_fail env now a c h0 hc (Or.inl hm)]
        exact le_refl 0
      · by_cases h3 : q.num = 0
        · rw [getTokenPrice_fail env now a c h0 hc (Or.inr ⟨q, hm, h3⟩)]
          exact le_refl 0
        · rw [getTokenPrice_moralis env now a c q h0 hc hm h3]
          exact hnn.2 a q hm
    · rw [getTokenPrice_cg env now a c p h0 hc]
      rcases cgHitFor_inv env a p hc with ⟨ps, h1, h2, _⟩
      exact hnn.1 [a] ps h1 (a, p) (lookupP_mem ps a p h2)
  · rw [getTokenPrice_hit env now a c r h0]
    rcases getCachedPrice_inv c now a r h0 with ⟨e, he, hr⟩
    rw [hr]
    exact hcn (a, e) (cacheGet_mem c a e he)

theorem getTokenPrice_cacheNonneg (env : FetchEnv) (now : ℤ) (a : ℕ) (c : Cache)
    (hnn : EnvNonneg env) (hcn : CacheNonneg c) :
    CacheNonneg ((getTokenPrice env now a c).2.1) := by
  rcases h0 : getCachedPrice c now a with _ | r
  · rcases hc : cgHitFor env a with _ | p
    · rcases hm : env.moralis a with _ | q
      · rw [getTokenPrice_fail env now a c h0 hc (Or.inl hm)]
        exact hcn
      · by_cases h3 : q.num = 0
        · rw [getTokenPrice_fail env now a c h0 hc (Or.inr ⟨q, hm, h3⟩)]
          exact hcn
        · rw [getTokenPrice_moralis env now a c q h0 hc hm h3]
          exact cacheNonneg_set c now a q Source.moralis hcn (hnn.2 a q hm)
    · rw [getTokenPrice_cg env now a c p h0 hc]
      rcases cgHitFor_inv env a p hc with ⟨ps, h1, h2, _⟩
      exact cacheNonneg_set c now a p Source.coingecko hcn
        (hnn.1 [a] ps h1 (a, p) (lookupP_mem ps a p h2))
  · rw [getTokenPrice_hit env now a c r h0]
    exact hcn

/-- Claim C5, amended (corrected): every line produced by a pass is a
non-negative integer equal either to the clamped treasury balance or to
`floor(per / price * 10^decimals)` computed in binary64 double
arithmetic (`dMul`/`dDiv`/`dPow10`/`floorF`) — not in exact rational
arithmetic, from which it can differ (see the counterexample). -/
theorem c5_amended (env : FetchEnv) (now : ℤ) (per : Frac) (hnn : EnvNonneg env)
    (hper : 0 ≤ per.num) :
    ∀ (toks : List Tok) (c : Cache), CacheNonneg c →
      ∀ l ∈ (processTokens env now per toks c).1,
        0 ≤ l.2 ∧ ∃ t ∈ toks, l.1 = t.addr ∧
          (l.2 = (t.balance : ℤ) ∨
            ∃ p : Frac, 0 < p.num ∧
              l.2 = floorF (dMul (dDiv per p) (dPow10 t.decimals))) := by
  intro toks
  induction toks with
  | nil => intro c _ l hl; cases hl
  | cons t ts ih =>
    intro c hcn l hl
    rw [processTokens_cons] at hl
    rcases List.mem_append.mp hl with h | h
    · rw [processToken_factor] at h
      by_cases h1 : ((getTokenPrice env now t.addr c).1).price.num = 0
      · rw [pureLine, if_pos h1] at h
        cases h
      · rw [pureLine, if_neg h1] at h
        simp only [Option.toList_some, List.mem_singleton] at h
        subst h
        have hpos : 0 < ((getTokenPrice env now t.addr c).1).price.num :=
          lt_of_le_of_ne (getTokenPrice_price_nonneg env now t.addr c hnn hcn)
            (Ne.symm h1)
        have hamt : 0 ≤ floorF (dMul (dDiv per ((getTokenPrice env now t.addr c).1).price)
            (dPow10 t.decimals)) :=
          floorF_nonneg _ (dMul_num_nonneg _ _ (dDiv_num_nonneg _ _ hper hpos)
            (dPow10_num_nonneg _))
        constructor
        · rw [clampAmt]
          by_cases h2 : (t.balance : ℤ) <
              floorF (dMul (dDiv per ((getTokenPrice env now t.addr c).1).price)
                (dPow10 t.decimals))
          · rw [if_pos h2]
            exact Int.natCast_nonneg _
          · rw [if_neg h2]
            exact hamt
        · refine ⟨t, List.mem_cons_self t ts, rfl, ?_⟩
          rw [clampAmt]
          by_cases h2 : (t.balance : ℤ) <
              floorF (dMul (dDiv per ((getTokenPrice env now t.addr c).1).price)
                (dPow10 t.decimals))
          · rw [if_pos h2]
            exact Or.inl rfl
          · rw [if_neg h2]
            exact Or.inr ⟨((getTokenPrice env now t.addr c).1).price, hpos, rfl⟩
    · have hcn2 : CacheNonneg ((processToken env now per t c).2.1) := by
        rw [processToken_cache]
        exact getTokenPrice_cacheNonneg env now t.addr c hnn hcn
      rcases ih ((processToken env now per t c).2.1) hcn2 l h with ⟨hge, u, hu, hrest⟩
      exact ⟨hge, u, List.mem_cons_of_mem t hu, hrest⟩

theorem zipFstSnd {α β : Type} : ∀ l : List (α × β), (l.map Prod.fst).zip (l.map Prod.snd) = l := by
  intro l
  induction l with
  | nil => rfl
  | cons x rest ih => simp [ih]

theorem processTokens_line_bound (env : FetchEnv) (now : ℤ) (per : Frac) :
    ∀ (toks : List Tok) (c : Cache), ∀ l ∈ (processTokens env now per toks c).1,
      ∃ t ∈ toks, l.1 = t.addr ∧ l.2 ≤ (t.balance : ℤ) := by
  intro toks
  induction toks with
  | nil => intro c l hl; cases hl
  | cons t ts ih =>
    intro c l hl
    rw [processTokens_cons] at hl
    rcases List.mem_append.mp hl with h | h
    · rw [processToken_factor] at h
      by_cases h1 : ((getTokenPrice env now t.addr c).1).price.num = 0
      · rw [pureLine, if_pos h1] at h
        cases h
      · rw [pureLine, if_neg h1] at h
        simp only [Option.toList_some, List.mem_singleton] at h
        subst h
        refine ⟨t, List.mem_cons_self t ts, rfl, ?_⟩
        rw [clampAmt]
        by_cases h2 : (t.balance : ℤ) <
            floorF (dMul (dDiv per ((getTokenPrice env now t.addr c).1).price)
              (dPow10 t.decimals))
        · rw [if_pos h2]
        · rw [if_neg h2]
          exact le_of_not_lt h2
    · rcases ih _ l h with ⟨u, hu, h1, h2⟩
      exact ⟨u, List.mem_cons_of_mem t hu, h1, h2⟩

theorem selLines_bound (env : FetchEnv) (now : ℤ) (tre : ℕ → Option (ℕ × ℕ))
    (sponsors : List ℕ) (shuffle : List Tok → List Tok) (E : ℕ) (c0 : Cache)
    (hsub : ∀ l, ∀ u ∈ shuffle l, u ∈ l) :
    ∀ p ∈ selLinesD env now tre sponsors shuffle E c0,
      p.2 ≤ (treasuryBalance tre p.1 : ℤ) := by
  intro p hp
  rw [selLinesD] at hp
  by_cases he : ((sponsorPassD env now tre sponsors E c0).1 ++
      (otherPassD env now tre sponsors shuffle E
        (sponsorPassD env now tre sponsors E c0).2.1).1).isEmpty
  · rw [if_pos he] at hp
    rcases hav : getAvailableTokensInTreasury tre with _ | ⟨t0, rest⟩
    · rw [hav] at hp
      simp [fallbackLines] at hp
    · rw [hav] at hp
      simp only [fallbackLines, List.mem_singleton] at hp
      subst hp
      have hmem : t0 ∈ getAvailableTokensInTreasury tre := by
        rw [hav]
        exact List.mem_cons_self t0 rest
      rw [treasuryBalance_of_mem tre t0 hmem]
      exact min_le_right _ _
  · rw [if_neg he] at hp
    rcases List.mem_append.mp hp with h | h
    · have hb : ∃ t ∈ sponsoredOf tre sponsors, p.1 = t.addr ∧ p.2 ≤ (t.balance : ℤ) := by
        revert h
        rw [sponsorPassD]
        by_cases hl : 0 < (sponsoredOf tre sponsors).length
        · rw [if_pos hl]
          exact fun h => processTokens_line_bound env now _ _ _ p h
        · rw [if_neg hl]
          intro h
          cases h
      rcases hb with ⟨t, ht, h1, h2⟩
      rw [h1, treasuryBalance_of_mem tre t (sponsoredOf_subset_avail tre sponsors t ht)]
      exact h2
    · have hb : ∃ t ∈ otherSelectionD tre sponsors shuffle,
          p.1 = t.addr ∧ p.2 ≤ (t.balance : ℤ) := by
        revert h
        rw [otherPassD]
        by_cases hl : 0 < min 3 (nonSponsoredOf tre sponsors).length ∧
            0 < (otherBudgetD E).num
        · rw [if_pos hl]
          exact fun h => processTokens_line_bound env now _ _ _ p h
        · rw [if_neg hl]
          intro h
          cases h
      rcases hb with ⟨t, ht, h1, h2⟩
      have htav : t ∈ getAvailableTokensInTreasury tre :=
        nonSponsoredOf_subset_avail tre sponsors t
          (otherSelection_subset tre sponsors shuffle hsub t ht)
      rw [h1, treasuryBalance_of_mem tre t htav]
      exact h2

/-- Claim C1, amended (corrected): whenever the treasury snapshot is
non-empty (so the catch-all error path is not taken), every allocation
line of the returned selection satisfies
`amountNative <= treasuryBalance` of its token — sponsor pass, other
pass (clamping branch included) and the in-function fallback never
over-allocate.  The original claim fails on the catch path (see the
counterexample). -/
theorem c1_amended (env : FetchEnv) (now : ℤ) (tre : ℕ → Option (ℕ × ℕ))
    (sponsors : List ℕ) (shuffle : List Tok → List Tok) (E : ℕ) (c0 : Cache)
    (havail : getAvailableTokensInTreasury tre ≠ [])
    (hsub : ∀ l, ∀ u ∈ shuffle l, u ∈ l) :
    overAllocOk tre (selectTokensForTier env now tre sponsors shuffle E c0).1 = true := by
  rw [select_ok_shape env now tre sponsors shuffle E c0 havail, overAllocOk]
  show (((selLinesD env now tre sponsors shuffle E c0).map Prod.fst).zip
      ((selLinesD env now tre sponsors shuffle E c0).map Prod.snd)).all _ = true
  rw [zipFstSnd, List.all_eq_true]
  intro p hp
  exact decide_eq_true (selLines_bound env now tre sponsors shuffle E c0 hsub p hp)

/-- Claim C3 counterexample: in scenario A (USDC balance 10,000 at
$1.00, no sponsors, target $100) the selection does NOT return
amountNative = 100_000000. -/
theorem c3_counterexample :
    (selectTokensForTier envNone 0 treScnA [] id 100000000 cacheScnA).1.amounts ≠
      [100000000] := by decide

theorem select_shuffle_congr (env : FetchEnv) (now : ℤ) (tre : ℕ → Option (ℕ × ℕ))
    (sponsors : List ℕ) (sh1 sh2 : List Tok → List Tok) (E : ℕ) (c0 : Cache)
    (h : sh1 (nonSponsoredOf tre sponsors) = sh2 (nonSponsoredOf tre sponsors)) :
    selectTokensForTier env now tre sponsors sh1 E c0 =
      selectTokensForTier env now tre sponsors sh2 E c0 := by
  simp only [selectTokensForTier, selectBody, otherPassD, otherSelectionD, h]

/-- Claim C3, amended (corrected): in scenario A, for every random draw,
selection returns exactly one line, for USDC, with
amountNative = 50_000000 (realized $50 against the $100 target,
variance -50%): the unused sponsor half of the budget is not
redirected. -/
theorem c3_amended (shuffle : List Tok → List Tok)
    (hperm : ∀ l, (shuffle l).Perm l) :
    (selectTokensForTier envNone 0 treScnA [] shuffle 100000000 cacheScnA).1 =
      ⟨[USDC], [50000000]⟩ := by
  have h : shuffle (nonSponsoredOf treScnA []) = nonSponsoredOf treScnA [] := by
    have h2 := hperm (nonSponsoredOf treScnA [])
    have h3 : nonSponsoredOf treScnA [] = [⟨USDC, 10000000000, 6⟩] := by decide
    rw [h3] at h2 ⊢
    exact List.perm_singleton.mp h2
  rw [select_shuffle_congr envNone 0 treScnA [] shuffle id 100000000 cacheScnA h]
  decide

/-- Claim C1 counterexample: with every watched treasury balance 0 at
selection time, the catch-all fallback still returns USDC with
amount = estimatedValue = 1000000 > 0 = treasury balance, violating
`amountNative <= treasuryBalance` on that fallback path. -/
theorem c1_counterexample :
    overAllocOk treZero (selectTokensForTier envNone 0 treZero [] id 1000000 []).1 = false := by
  decide

/-- Claim C2 counterexample: with an empty treasury snapshot the call
returns the selection `{tokens: [USDC], amounts: [estimatedValue]}` —
a silently substituted default token and amount — instead of failing
with a propagated typed error. -/
theorem c2_counterexample :
    (selectTokensForTier envNone 0 treZero [] id 1000000 []).1 = ⟨[USDC], [1000000]⟩ := by
  decide

/-- Claim C2, amended (corrected): when the snapshot is empty, the body
of `selectTokensForTier` throws the plain Error
"No tokens available in TokenTreasury" (no typed NoTreasuryTokensError
exists), and the surrounding catch swallows it and returns the USDC
fallback selection; nothing propagates to the caller. -/
theorem c2_amended (env : FetchEnv) (now : ℤ) (tre : ℕ → Option (ℕ × ℕ))
    (sponsors : List ℕ) (shuffle : List Tok → List Tok) (E : ℕ) (c0 : Cache)
    (h : getAvailableTokensInTreasury tre = []) :
    selectBody env now tre sponsors shuffle E c0 =
        Except.error "No tokens available in TokenTreasury" ∧
      (selectTokensForTier env now tre sponsors shuffle E c0).1 = ⟨[USDC], [(E : ℤ)]⟩ := by
  constructor
  · simp [selectBody, h]
  · simp [selectTokensForTier, selectBody, h]

/-- Claim C4 counterexample: two sponsored records (DEGEN, AERO) in the
treasury, only DEGEN priced ($1.00): the code allocates
floor((sponsorBudget / 2) / 1 * 10^6) = 25_000000 to DEGEN, whereas the
claim (divide by the count of priced sponsored records, i.e. 1) demands
50_000000. -/
theorem c4_counterexample :
    (selectTokensForTier envNone 0 treScnC4 [DEGEN, AERO] id 100000000 cacheScnC4).1 =
        ⟨[DEGEN], [25000000]⟩ ∧
      c4ClaimAmount = 50000000 ∧ (25000000 : ℤ) ≠ 50000000 := by decide

/-- Claim C5 counterexample: target $0.58, one candidate priced at the
double nearest 0.29, 18 decimals: the code computes
amountNative = 10^18 in double arithmetic, while the exact rational
floor of perTokenValueUSD / price * 10^18 is 10^18 + 68. -/
theorem c5_counterexample :
    (selectTokensForTier envNone 0 treScnC5 [] id 580000 cacheScnC5).1 =
        ⟨[DEGEN], [1000000000000000000]⟩ ∧
      floorF c5ExactValue = 1000000000000000068 ∧
      (1000000000000000000 : ℤ) ≠ 1000000000000000068 := by decide

/-- Claim C8 counterexample: `calculateWalletValue` on an uncached token
whose price the primary source reports as $5 writes that price into the
empty cache — the call mutates the price cache. -/
theorem c8_counterexample :
    (calculateWalletValue envCG5 0 [⟨USDC, 100, 2⟩] []).2.1 =
        [(USDC, ⟨⟨5, 1⟩, Source.coingecko, 0⟩)] ∧
      (calculateWalletValue envCG5 0 [⟨USDC, 100, 2⟩] []).2.1 ≠ ([] : Cache) := by decide

/-- Witness for C1 amended at scenario A. -/
theorem c1_amended_witness :
    overAllocOk treScnA (selectTokensForTier envNone 0 treScnA [] id 100000000 cacheScnA).1 =
      true :=
  c1_amended envNone 0 treScnA [] id 100000000 cacheScnA (by decide) (fun _ _ hu => hu)

/-- Witness for C2 amended at the all-zero-balance treasury. -/
theorem c2_amended_witness :
    selectBody envNone 0 treZero [] id 5 [] =
        Except.error "No tokens available in TokenTreasury" ∧
      (selectTokensForTier envNone 0 treZero [] id 5 []).1 = ⟨[USDC], [(5 : ℤ)]⟩ :=
  c2_amended envNone 0 treZero [] id 5 [] (by decide)

/-- Witness for C3 amended with the identity draw. -/
theorem c3_amended_witness :
    (selectTokensForTier envNone 0 treScnA [] id 100000000 cacheScnA).1 =
      ⟨[USDC], [50000000]⟩ :=
  c3_amended id (fun l => List.Perm.refl l)

/-- Witness for C4 amended at the two-sponsor scenario. -/
theorem c4_amended_witness :
    (sponsorPassD envNone 0 treScnC4 [DEGEN, AERO] 100000000 cacheScnC4).1 =
      pureLines (fun x => (getTokenPrice envNone 0 x cacheScnC4).1)
        (dDiv (sponsorBudgetD 100000000)
          (dOfNat (sponsoredOf treScnC4 [DEGEN, AERO]).length))
        (sponsoredOf treScnC4 [DEGEN, AERO]) :=
  c4_amended envNone 0 treScnC4 [DEGEN, AERO] 100000000 cacheScnC4 (by decide)

/-- Witness for C5 amended at the DEGEN line of the C5 scenario. -/
theorem c5_amended_witness :
    0 ≤ ((DEGEN, (1000000000000000000 : ℤ)) : ℕ × ℤ).2 ∧
      ∃ t ∈ [(⟨DEGEN, 10 ^ 21, 18⟩ : Tok)],
        ((DEGEN, (1000000000000000000 : ℤ)) : ℕ × ℤ).1 = t.addr ∧
          (((DEGEN, (1000000000000000000 : ℤ)) : ℕ × ℤ).2 = (t.balance : ℤ) ∨
            ∃ p : Frac, 0 < p.num ∧
              ((DEGEN, (1000000000000000000 : ℤ)) : ℕ × ℤ).2 =
                floorF (dMul (dDiv (dDiv (otherBudgetD 580000) (dOfNat 1)) p)
                  (dPow10 t.decimals))) :=
  c5_amended envNone 0 (dDiv (otherBudgetD 580000) (dOfNat 1))
    ⟨(fun _ _ h => nomatch h), (fun _ _ h => nomatch h)⟩ (by decide)
    [⟨DEGEN, 10 ^ 21, 18⟩] cacheScnC5 (by unfold CacheNonneg; decide)
    (DEGEN, (1000000000000000000 : ℤ)) (by decide)

/-- Witness for C6 at a fresh USDC cache entry. -/
theorem c6_cache_ttl_witness :
    ((0 : ℤ) - 0 < CACHE_TTL →
      getTokenPrice envNone 0 USDC cacheScnA =
        (⟨⟨1, 1⟩, true, Source.coingecko⟩, cacheScnA, [])) ∧
    (CACHE_TTL ≤ (0 : ℤ) - 0 →
      (getTokenPrice envNone 0 USDC cacheScnA).1.cached = false ∧
        (getTokenPrice envNone 0 USDC cacheScnA).2.2 ≠ []) :=
  c6_cache_ttl envNone cacheScnA 0 USDC ⟨⟨1, 1⟩, Source.coingecko, 0⟩ (by decide)

/-- Witness for C7 in the environment where both sources fail. -/
theorem c7_fallback_isolation_witness :
    (getCachedPrice [] 0 USDC = none → cgUnpriced envNone [USDC] USDC →
      Fetch.mk Source.moralis [USDC] ∈ (getTokenPrice envNone 0 USDC []).2.2 ∧
        (moralisUnpriced envNone USDC →
          (getTokenPrice envNone 0 USDC []).1 = ⟨fzero, false, Source.nosrc⟩)) ∧
    (USDC ∈ (cacheScan [] 0 [USDC]).2 → cgUnpriced envNone (cacheScan [] 0 [USDC]).2 USDC →
      Fetch.mk Source.moralis [USDC] ∈ (getTokenPrices envNone 0 [USDC] []).2.2 ∧
        (moralisUnpriced envNone USDC →
          lookupR (getTokenPrices envNone 0 [USDC] []).1 USDC =
            some ⟨fzero, false, Source.nosrc⟩)) :=
  c7_fallback_isolation envNone 0 USDC [] [USDC]
    ⟨(fun _ _ h => nomatch h), (fun _ _ h => nomatch h)⟩ (fun _ _ h => nomatch h)

/-- Witness for C8 amended with the USDC price freshly cached. -/
theorem c8_amended_witness :
    (calculateWalletValue envNone 0 [⟨USDC, 100, 2⟩] cacheScnA).2.1 = cacheScnA ∧
      (calculateWalletValue envNone 0 [⟨USDC, 100, 2⟩] cacheScnA).2.2 = [] :=
  c8_amended envNone 0 [⟨USDC, 100, 2⟩] cacheScnA (by decide)

/-- Witness for C9: two runs at different clock instants but identical
fresh cache resolve the same prices and select identically. -/
theorem c9_pure_of_prices_witness :
    (selectTokensForTier envNone 0 treScnA [] id 100000000 cacheScnA).1 =
      (selectTokensForTier envNone 7 treScnA [] id 100000000 cacheScnA).1 :=
  c9_pure_of_prices treScnA [] id 100000000 envNone 0 cacheScnA envNone 7 cacheScnA
    (fun l => List.Perm.refl l) (by decide)

/-- Witness for C10 at a well-formed one-entry cache. -/
theorem c10_cache_discipline_witness :
    CacheOk ((getTokenPrice envNone 0 USDC cacheScnA).2.1) ∧
      CacheOk ((getTokenPrices envNone 0 [USDC] cacheScnA).2.1) ∧
      ((getTokenPrice envNone 0 USDC cacheScnA).1.source = Source.nosrc →
        (getTokenPrice envNone 0 USDC cacheScnA).2.1 = cacheScnA ∧
          (getTokenPrice envNone 0 USDC cacheScnA).2.2 ≠ []) :=
  c10_cache_discipline envNone 0 USDC [USDC] cacheScnA
    ⟨(fun _ _ h => nomatch h), (fun _ _ h => nomatch h)⟩ (by unfold CacheOk; decide)

end Vendyz
